import Mathlib

/-!
  Verification of the LCA4MDAO layered parameter recalculation engine

Shallow embedding of `src/lca4mdao/parameter.py` (classes `MdaoParameter`
and `MdaoParameterManager`) and the external-input push path of
`src/lca4mdao/component.py` (`LcaCalculationComponent.compute`).

The repository builds on external libraries (`bw2data`, `bw2parameters`,
`asteval`, `peewee`) whose sources are not part of the repository.  Where a
claim depends on such a collaborator, the collaborator is modelled from the
specification's contract for it; every such definition carries a
doc comment starting with `Modelled from the spec:`.  Everything else is
translated directly from the repository source.

Conventions:
* Machine floats are modelled as `Rat` (the formulas of interest are
  arithmetic over decimal literals).
* The peewee/SQLite store is a record of lists (`Store`); `atomic()` blocks
  are modelled by returning the original store on error.
* Each operation returns a `Res`: the resulting store, a trace of events
  (group visits, parameter-amount writes, exchange writes, and for the
  save/push paths expiry and row-persist markers), and an optional error
  (a raised Python exception).
-/

/-! ## String utilities

`str.replace` and substring containment, as used by peewee's
`TextField.contains` and bw2data's `alter_parameter_formula`
(`parameter.formula.replace(old, new)`): raw, left-to-right,
non-overlapping substring replacement. -/

def isPrefixB : List Char → List Char → Bool
  | [], _ => true
  | _ :: _, [] => false
  | a :: as, b :: bs => a = b && isPrefixB as bs

def containsAux (pat : List Char) : List Char → Bool
  | [] => isPrefixB pat []
  | c :: rest => isPrefixB pat (c :: rest) || containsAux pat rest

/-- Substring containment, as in SQL `LIKE '%pat%'` / Python `pat in s`. -/
def containsSub (s pat : String) : Bool := containsAux pat.data s.data

/-- One step of Python's `str.replace`, fuelled by the input length.
An empty pattern leaves the string unchanged (never exercised: parameter
names are nonempty). -/
def pyReplaceAux (pat repl : List Char) : Nat → List Char → List Char
  | 0, l => l
  | _ + 1, [] => []
  | fuel + 1, c :: rest =>
    if pat.isEmpty then c :: rest
    else if isPrefixB pat (c :: rest) then
      repl ++ pyReplaceAux pat repl fuel ((c :: rest).drop pat.length)
    else c :: pyReplaceAux pat repl fuel rest

/-- Python's `s.replace(pat, repl)`. -/
def pyReplace (s pat repl : String) : String :=
  String.mk (pyReplaceAux pat.data repl.data s.data.length s.data)

/-! ## The restricted formula language

Formulas are stored as text.  The engine evaluates them with `asteval`
(exchange recomputation) and `bw2parameters` (parameter recomputation);
both accept arithmetic over names and numeric literals.  We model the
spec's grammar (§4.1): decimal literals, identifiers, `+ - * /`,
exponentiation `**`, unary minus and parentheses.  Builtin math functions
of the evaluators (e.g. `sqrt`) are outside the modelled grammar; no
formula in this development uses them. -/

inductive Tok where
  | num (q : Rat)
  | ident (n : String)
  | plus
  | minus
  | star
  | slash
  | caret
  | lpar
  | rpar
deriving Repr, DecidableEq

def isIdentStart (c : Char) : Bool := c.isAlpha || c = '_'

def isIdentChar (c : Char) : Bool := c.isAlphanum || c = '_'

def digitsToNat (l : List Char) : Nat :=
  l.foldl (fun a c => a * 10 + (c.toNat - '0'.toNat)) 0

def mkDecimal (intPart fracPart : List Char) : Rat :=
  (digitsToNat intPart : Rat) + (digitsToNat fracPart : Rat) / ((10 : Rat) ^ fracPart.length)

/-- Tokenizer, fuelled by the input length (each step consumes at least one
character).  A digit run directly followed by an identifier character is a
malformed literal and rejected. -/
def tokenizeAux (pat : Unit) : Nat → List Char → Option (List Tok)
  | _, [] => some []
  | 0, _ :: _ => none
  | fuel + 1, c :: rest =>
    if c = ' ' then tokenizeAux pat fuel rest
    else if c = '(' then (tokenizeAux pat fuel rest).map (Tok.lpar :: ·)
    else if c = ')' then (tokenizeAux pat fuel rest).map (Tok.rpar :: ·)
    else if c = '+' then (tokenizeAux pat fuel rest).map (Tok.plus :: ·)
    else if c = '-' then (tokenizeAux pat fuel rest).map (Tok.minus :: ·)
    else if c = '/' then (tokenizeAux pat fuel rest).map (Tok.slash :: ·)
    else if c = '*' then
      match rest with
      | '*' :: rest2 => (tokenizeAux pat fuel rest2).map (Tok.caret :: ·)
      | _ => (tokenizeAux pat fuel rest).map (Tok.star :: ·)
    else if isIdentStart c then
      (tokenizeAux pat fuel (rest.dropWhile isIdentChar)).map
        (Tok.ident (String.mk (c :: rest.takeWhile isIdentChar)) :: ·)
    else if c.isDigit then
      let intRun := rest.takeWhile Char.isDigit
      let rest2 := rest.dropWhile Char.isDigit
      match rest2 with
      | '.' :: r3 =>
        let fracRun := r3.takeWhile Char.isDigit
        let r4 := r3.dropWhile Char.isDigit
        if (match r4 with | d :: _ => isIdentChar d | [] => false) then none
        else (tokenizeAux pat fuel r4).map (Tok.num (mkDecimal (c :: intRun) fracRun) :: ·)
      | _ =>
        if (match rest2 with | d :: _ => isIdentChar d | [] => false) then none
        else (tokenizeAux pat fuel rest2).map (Tok.num ((digitsToNat (c :: intRun) : Rat)) :: ·)
    else none

def tokenize (s : String) : Option (List Tok) := tokenizeAux () s.data.length s.data

/-- Abstract syntax of parsed formulas. -/
inductive FExpr where
  | num (q : Rat)
  | var (n : String)
  | neg (a : FExpr)
  | add (a b : FExpr)
  | sub (a b : FExpr)
  | mul (a b : FExpr)
  | div (a b : FExpr)
  | pow (a b : FExpr)
deriving Repr, DecidableEq

/-- Names referenced by a parsed formula. -/
def varsE : FExpr → List String
  | .num _ => []
  | .var n => [n]
  | .neg a => varsE a
  | .add a b => varsE a ++ varsE b
  | .sub a b => varsE a ++ varsE b
  | .mul a b => varsE a ++ varsE b
  | .div a b => varsE a ++ varsE b
  | .pow a b => varsE a ++ varsE b

/-- First-match lookup in a symbol table. -/
def lookupTbl (tbl : List (String × Rat)) (n : String) : Option Rat :=
  (tbl.find? (fun kv => kv.1 = n)).map (·.2)

/-- Evaluation of a parsed formula against a symbol table.  Total on
rationals (`x / 0 = 0`, as in Lean's `Rat`); exponents must be integers.
The only name resolution performed is `lookupTbl` on the given table. -/
def evalE (tbl : List (String × Rat)) : FExpr → Option Rat
  | .num q => some q
  | .var n => lookupTbl tbl n
  | .neg a => (evalE tbl a).map (fun x => -x)
  | .add a b =>
    match evalE tbl a, evalE tbl b with
    | some x, some y => some (x + y)
    | _, _ => none
  | .sub a b =>
    match evalE tbl a, evalE tbl b with
    | some x, some y => some (x - y)
    | _, _ => none
  | .mul a b =>
    match evalE tbl a, evalE tbl b with
    | some x, some y => some (x * y)
    | _, _ => none
  | .div a b =>
    match evalE tbl a, evalE tbl b with
    | some x, some y => some (x / y)
    | _, _ => none
  | .pow a b =>
    match evalE tbl a, evalE tbl b with
    | some x, some y => if y.den = 1 then some (x ^ y.num) else none
    | _, _ => none

mutual

/-- `expr := term (('+'|'-') term)*` -/
def parseE : Nat → List Tok → Option (FExpr × List Tok)
  | 0, _ => none
  | fuel + 1, toks =>
    match parseT fuel toks with
    | some (e, rest) => parseELoop fuel e rest
    | none => none

def parseELoop : Nat → FExpr → List Tok → Option (FExpr × List Tok)
  | 0, _, _ => none
  | fuel + 1, acc, Tok.plus :: r =>
    match parseT fuel r with
    | some (e, rest) => parseELoop fuel (FExpr.add acc e) rest
    | none => none
  | fuel + 1, acc, Tok.minus :: r =>
    match parseT fuel r with
    | some (e, rest) => parseELoop fuel (FExpr.sub acc e) rest
    | none => none
  | _ + 1, acc, toks => some (acc, toks)

/-- `term := factor (('*'|'/') factor)*` -/
def parseT : Nat → List Tok → Option (FExpr × List Tok)
  | 0, _ => none
  | fuel + 1, toks =>
    match parseF fuel toks with
    | some (e, rest) => parseTLoop fuel e rest
    | none => none

def parseTLoop : Nat → FExpr → List Tok → Option (FExpr × List Tok)
  | 0, _, _ => none
  | fuel + 1, acc, Tok.star :: r =>
    match parseF fuel r with
    | some (e, rest) => parseTLoop fuel (FExpr.mul acc e) rest
    | none => none
  | fuel + 1, acc, Tok.slash :: r =>
    match parseF fuel r with
    | some (e, rest) => parseTLoop fuel (FExpr.div acc e) rest
    | none => none
  | _ + 1, acc, toks => some (acc, toks)

/-- `factor := '-' factor | power` -/
def parseF : Nat → List Tok → Option (FExpr × List Tok)
  | 0, _ => none
  | fuel + 1, Tok.minus :: r =>
    match parseF fuel r with
    | some (e, rest) => some (FExpr.neg e, rest)
    | none => none
  | fuel + 1, toks => parseP fuel toks

/-- `power := atom ('**' factor)?` (right associative) -/
def parseP : Nat → List Tok → Option (FExpr × List Tok)
  | 0, _ => none
  | fuel + 1, toks =>
    match parseAtom fuel toks with
    | some (e, Tok.caret :: r) =>
      match parseF fuel r with
      | some (e2, rest) => some (FExpr.pow e e2, rest)
      | none => none
    | some (e, rest) => some (e, rest)
    | none => none

/-- `atom := number | identifier | '(' expr ')'` -/
def parseAtom : Nat → List Tok → Option (FExpr × List Tok)
  | 0, _ => none
  | _ + 1, Tok.num q :: r => some (FExpr.num q, r)
  | _ + 1, Tok.ident n :: r => some (FExpr.var n, r)
  | fuel + 1, Tok.lpar :: r =>
    match parseE fuel r with
    | some (e, Tok.rpar :: r2) => some (e, r2)
    | _ => none
  | _ + 1, _ => none

end

/-- Parse a stored formula string; `none` on any lexical or syntax error. -/
def parseFormula (f : String) : Option FExpr :=
  match tokenize f with
  | none => none
  | some toks =>
    match parseE (10 * toks.length + 10) toks with
    | some (e, []) => some e
    | _ => none

/-- Evaluate a formula string against a symbol table; `none` when the
formula is malformed or references a name absent from the table.  This is
the model of handing the string to an arithmetic interpreter whose symbol
table is exactly `tbl`. -/
def evalFormula (tbl : List (String × Rat)) (f : String) : Option Rat :=
  match parseFormula f with
  | some e => evalE tbl e
  | none => none

/-- All names a formula string references (empty for malformed text). -/
def varsOfFormula (f : String) : List String :=
  match parseFormula f with
  | some e => (varsE e).dedup
  | none => []

/-- Names preloaded into the evaluators' symbol tables (asteval's builtin
math names, excluded from dependency analysis by bw2data's
`get_new_symbols`).  Fixed allow-list per spec §4.1. -/
def builtinNames : List String :=
  ["sqrt", "exp", "log", "log10", "sin", "cos", "tan", "asin", "acos",
   "atan", "abs", "min", "max", "pi", "e"]

/-- Model of bw2data's `get_new_symbols` on one formula: referenced names
that are not evaluator builtins. -/
def newSymbolsOfFormula (f : String) : List String :=
  (varsOfFormula f).filter (fun n => n ∉ builtinNames)

/-! ## Data model

The persistent store (`parameters.db`): parameter tables for each layer,
parameterized exchanges, the external exchange records written by the
engine, `Group` freshness rows, `GroupDependency` edges, the registry of
database names, and the set of datasets marked dirty. -/

/-- Row of the `mdaoparameter` table (and, reused, of the project and
database parameter tables): `name`, optional `formula` text, cached
`amount`, and the one `data`-bag key the engine reads (`mdao_name`). -/
structure MParam where
  name : String
  formula : Option String
  amount : Rat
  mdaoName : Option String
deriving Repr, DecidableEq

/-- Row of bw2data's `activityparameter` table (fields the engine reads):
owning group, its database (the Activity layer's ancestor), name,
formula, amount. -/
structure ActParam where
  group : String
  database : String
  name : String
  formula : Option String
  amount : Rat
deriving Repr, DecidableEq

/-- Row of `parameterizedexchange`: owning group, reference to the
external exchange record, formula text. -/
structure PExchange where
  group : String
  exchange : Nat
  formula : String
deriving Repr, DecidableEq

/-- External exchange record (`ExchangeDataset`): id, the stored
`data['amount']` (`none` models Python `None`), owning output database. -/
structure ExchangeDS where
  id : Nat
  amount : Option Rat
  outputDatabase : String
deriving Repr, DecidableEq

/-- Errors surfaced to the caller (Python exceptions). -/
inductive Err where
  | missingName (names : List String)
  | valueError
  | evalError
  | keyError
deriving Repr, DecidableEq

/-- Trace events: which groups the orchestrator recalculates, which
parameter amounts are written, which exchange records are written, and
(for the save/push paths) group expiry and row persistence markers. -/
inductive Ev where
  | visitProject
  | visitMdao
  | visitDb (db : String)
  | visitAct (g : String)
  | writeParam (n : String)
  | writeExch (id : Nat)
  | expireEv (g : String)
  | persistEv (n : String)
deriving Repr, DecidableEq

/-- The persistent store. -/
structure Store where
  mdaoParams : List MParam
  projectParams : List MParam
  dbParams : List (String × MParam)
  actParams : List ActParam
  pexchanges : List PExchange
  exchangeData : List ExchangeDS
  groups : List (String × Bool)
  groupDeps : List (String × String)
  databases : List String
  dirty : List String
deriving Repr, DecidableEq

/-- Result of an operation: resulting store, event trace, optional raised
error. -/
structure Res where
  st : Store
  evs : List Ev
  err : Option Err
deriving Repr, DecidableEq

/-- Sequencing: on error the remaining computation is skipped (the Python
exception propagates); event traces concatenate. -/
def Res.andThen (r : Res) (f : Store → Res) : Res :=
  match r.err with
  | some _ => r
  | none =>
    let r2 := f r.st
    ⟨r2.st, r.evs ++ r2.evs, r2.err⟩

/-! ## Group operations (bw2data `Group` rows) -/

/-- `Group.get(name=g).fresh`, as an optional lookup (first matching row). -/
def lookupGroup (s : Store) (g : String) : Option Bool :=
  (s.groups.find? (fun gf => gf.1 = g)).map (·.2)

/-- `Group.get_or_create(name=g)` followed by setting `fresh = b`: updates
every row named `g`, creating one when none exists. -/
def setGroup (s : Store) (g : String) (b : Bool) : Store :=
  if s.groups.any (fun gf => gf.1 = g) then
    { s with groups := s.groups.map (fun gf => if gf.1 = g then (gf.1, b) else gf) }
  else
    { s with groups := s.groups ++ [(g, b)] }

/-- `Group.get_or_create(name=g)[0].expire()`. -/
def expireGroup (s : Store) (g : String) : Store := setGroup s g false

/-- `Group.get_or_create(name=g)[0].freshen()`. -/
def freshenGroup (s : Store) (g : String) : Store := setGroup s g true

/-- bw2data's `ParameterBase.expire_downstream(g)`: set `fresh = False` on
every existing `Group` row whose name depends on `g` via a
`GroupDependency` edge (no rows are created). -/
def expireDownstream (s : Store) (g : String) : Store :=
  { s with groups := s.groups.map (fun gf =>
      if s.groupDeps.any (fun d => d.1 = gf.1 && d.2 = g) then (gf.1, false) else gf) }

/-- `databases.set_dirty(db)`. -/
def setDirty (s : Store) (db : String) : Store :=
  if db ∈ s.dirty then s else { s with dirty := s.dirty ++ [db] }

/-! ## Formula dependency analysis -/

/-- Referenced non-builtin symbols across a list of parameter rows
(bw2data's `get_new_symbols(data.values())`), deduplicated. -/
def neededSymbols (ps : List MParam) : List String :=
  (ps.flatMap (fun p =>
    match p.formula with
    | some f => newSymbolsOfFormula f
    | none => [])).dedup

/-- Names of the rows. -/
def paramNames (ps : List MParam) : List String := ps.map (·.name)

/-- The referenced symbols not defined by the rows themselves
(`needed.difference(data)`), in reference order. -/
def missingSymbols (ps : List MParam) : List String :=
  (neededSymbols ps).filter (fun n => !(ps.any (fun p => p.name = n)))

/-! ## The parameter-set evaluator

`MdaoParameter.recalculate` hands its rows to
`bw2parameters.ParameterSet(data).evaluate_and_set_amount_field()`.
bw2parameters is not part of the repository. -/

/-- One resolution pass: evaluate every pending row whose referenced
non-builtin symbols are all already resolved. -/
def psetPasses (fuel : Nat) (resolved : List (String × Rat)) (pending : List MParam) :
    Except Err (List (String × Rat)) :=
  match fuel with
  | 0 => if pending.isEmpty then .ok resolved else .error .evalError
  | fuel + 1 =>
    if pending.isEmpty then .ok resolved
    else
      let ready := pending.filter (fun p =>
        match p.formula with
        | some f => (newSymbolsOfFormula f).all (fun n => (lookupTbl resolved n).isSome)
        | none => true)
      if ready.isEmpty then .error .evalError
      else
        match (ready.mapM (fun p =>
          match p.formula with
          | some f =>
            match evalFormula resolved f with
            | some v => some (p.name, v)
            | none => none
          | none => some (p.name, p.amount)) : Option (List (String × Rat))) with
        | none => .error .evalError
        | some newly =>
          psetPasses fuel (resolved ++ newly)
            (pending.filter (fun p =>
              !(match p.formula with
                | some f => (newSymbolsOfFormula f).all (fun n => (lookupTbl resolved n).isSome)
                | none => true)))

/-- Modelled from the spec: `bw2parameters.ParameterSet` with global
symbols `globals` (spec §4.1/§4.3/§4.4) — the Expression Evaluator plus
Layer Resolver contract.  If any formula references a name defined
neither by the rows, nor by `globals`, nor a builtin, it fails with a
missing-symbol error listing every unresolved name; otherwise it resolves
all rows (rows without a formula keep their stored amount) and returns
the name-to-amount table.  Unresolvable (circular or malformed) formulas
give `evalError`. -/
def evaluateParameterSet (globals : List (String × Rat)) (ps : List MParam) :
    Except Err (List (String × Rat)) :=
  let missing := (neededSymbols ps).filter (fun n =>
    !(ps.any (fun p => p.name = n)) && !(globals.any (fun kv => kv.1 = n)))
  if missing.isEmpty then
    psetPasses (ps.length + 1)
      ((ps.filter (fun p => p.formula = none)).map (fun p => (p.name, p.amount)) ++ globals)
      (ps.filter (fun p => p.formula ≠ none))
  else .error (.missingName missing)

/-- Apply a resolved amount table back onto rows. -/
def applyAmounts (amounts : List (String × Rat)) (ps : List MParam) : List MParam :=
  ps.map (fun p =>
    match lookupTbl amounts p.name with
    | some v => { p with amount := v }
    | none => p)

/-! ## `MdaoParameter` (src/lca4mdao/parameter.py, lines 15-192) -/

/-- `MdaoParameter.static()` (lines 55-66), without the `only` filter:
the `{name: amount}` dictionary of all mdao parameters. -/
def MdaoParameter.static (s : Store) : List (String × Rat) :=
  s.mdaoParams.map (fun p => (p.name, p.amount))

/-- `MdaoParameter.expired()` (lines 68-74): `not Group.get(name='lca4mdao').fresh`,
and `False` when the group row does not exist. -/
def MdaoParameter.expired (s : Store) : Bool :=
  match lookupGroup s "lca4mdao" with
  | some fresh => !fresh
  | none => false

/-- `MdaoParameter.recalculate()` (lines 76-93): skip unless expired; skip
when there are no rows; evaluate the whole row set; then, atomically,
write every row's amount, freshen `'lca4mdao'`, and expire the groups
downstream of it. -/
def MdaoParameter.recalculate (s : Store) : Res :=
  if !(MdaoParameter.expired s) then ⟨s, [], none⟩
  else if s.mdaoParams.isEmpty then ⟨s, [], none⟩
  else
    match evaluateParameterSet [] s.mdaoParams with
    | .error e => ⟨s, [], some e⟩
    | .ok amounts =>
      let s1 := { s with mdaoParams := applyAmounts amounts s.mdaoParams }
      let s2 := expireDownstream (freshenGroup s1 "lca4mdao") "lca4mdao"
      ⟨s2, s.mdaoParams.map (fun p => Ev.writeParam p.name), none⟩

/-- `MdaoParameter.recalculate_exchanges()` (lines 95-111): recalculate the
parameters when expired, then evaluate every `ParameterizedExchange` of
group `'lca4mdao'` with an interpreter whose symbol table holds exactly
`MdaoParameter.static()`, writing each result (Python `None` on a failed
evaluation) into the external exchange record and marking its output
database dirty.  A dangling exchange reference raises (`keyError`). -/
def recalcExchangesLoop (tbl : List (String × Rat)) : List PExchange → Store → Res
  | [], s => ⟨s, [], none⟩
  | obj :: rest, s =>
    match s.exchangeData.find? (fun e => e.id = obj.exchange) with
    | none => ⟨s, [], some .keyError⟩
    | some exc =>
      let newAmount := evalFormula tbl obj.formula
      let s1 := { s with exchangeData := s.exchangeData.map (fun e =>
        if e.id = obj.exchange then { e with amount := newAmount } else e) }
      let s2 := setDirty s1 exc.outputDatabase
      Res.andThen ⟨s2, [Ev.writeExch obj.exchange], none⟩ (recalcExchangesLoop tbl rest)

def MdaoParameter.recalculate_exchanges (s : Store) : Res :=
  Res.andThen (if MdaoParameter.expired s then MdaoParameter.recalculate s else ⟨s, [], none⟩)
    (fun st =>
      recalcExchangesLoop (MdaoParameter.static st)
        (st.pexchanges.filter (fun pe => pe.group = "lca4mdao")) st)

/-- `MdaoParameter.dependency_chain()` (lines 113-144): `[]` when there is
no data or nothing referenced; a missing-name error listing every
undefined symbol; otherwise the full set of referenced symbols. -/
def MdaoParameter.dependency_chain (s : Store) : Except Err (List String) :=
  if s.mdaoParams.isEmpty then .ok []
  else
    let needed := neededSymbols s.mdaoParams
    if needed.isEmpty then .ok []
    else
      let missing := needed.filter (fun n => !(s.mdaoParams.any (fun p => p.name = n)))
      if missing.isEmpty then .ok needed
      else .error (.missingName missing)

/-- `MdaoParameter.is_dependency_within_group(name)` (lines 146-149). -/
def MdaoParameter.is_dependency_within_group (s : Store) (n : String) : Except Err Bool :=
  match MdaoParameter.dependency_chain s with
  | .error e => .error e
  | .ok names => .ok (n ∈ names)

/-- `MdaoParameter.save()` (lines 41-43): expire `'lca4mdao'` first, then
persist the row (update the row of the same name, else insert). -/
def MdaoParameter.save (s : Store) (p : MParam) : Res :=
  let s1 := expireGroup s "lca4mdao"
  let s2 :=
    if s1.mdaoParams.any (fun q => q.name = p.name) then
      { s1 with mdaoParams := s1.mdaoParams.map (fun q => if q.name = p.name then p else q) }
    else
      { s1 with mdaoParams := s1.mdaoParams ++ [p] }
  ⟨s2, [Ev.expireEv "lca4mdao", Ev.persistEv p.name], none⟩

/-- `MdaoParameter.update_formula_parameter_name(old, new)` (lines
166-177): for every row whose formula *contains `old` as a raw substring*
(`cls.formula.contains(old)`), replace that substring via bw2data's
`alter_parameter_formula` (Python `str.replace`), then expire
`'lca4mdao'`. -/
def MdaoParameter.update_formula_parameter_name (s : Store) (old new : String) : Store :=
  expireGroup
    { s with mdaoParams := s.mdaoParams.map (fun p =>
        match p.formula with
        | some f => if containsSub f old then { p with formula := some (pyReplace f old new) } else p
        | none => p) }
    "lca4mdao"

/-! ## The other layers (bw2data collaborators)

`ProjectParameter`, `DatabaseParameter` and `ActivityParameter` live in
bw2data, outside the repository; the orchestrator
(`MdaoParameterManager.recalculate`, source lines 303-318) drives them.
They are modelled from the spec (§4.3 Layer Resolver, §4.4 steps 2-3):
skip a fresh group, otherwise evaluate the group's parameters against its
own scope plus its ancestor layers' resolved amounts (own scope shadowing)
and commit all amounts together with freshening the group. -/

/-- Modelled from the spec: bw2data `ProjectParameter.static()` — the
project layer's resolved `{name: amount}` table. -/
def ProjectParameter.static (s : Store) : List (String × Rat) :=
  s.projectParams.map (fun p => (p.name, p.amount))

/-- Modelled from the spec: bw2data `ProjectParameter.expired()` — same
row lookup as the in-source `MdaoParameter.expired`, for group
`'project'` (a missing row reads as not expired). -/
def ProjectParameter.expired (s : Store) : Bool :=
  match lookupGroup s "project" with
  | some fresh => !fresh
  | none => false

/-- Modelled from the spec: bw2data `ProjectParameter.recalculate()` —
the Project layer has no ancestors; evaluate its parameters, commit all
amounts and freshen `'project'` (§4.4 step 3). -/
def ProjectParameter.recalculate (s : Store) : Res :=
  match evaluateParameterSet [] s.projectParams with
  | .error e => ⟨s, [], some e⟩
  | .ok amounts =>
    ⟨freshenGroup { s with projectParams := applyAmounts amounts s.projectParams } "project",
     s.projectParams.map (fun p => Ev.writeParam p.name), none⟩

/-- Modelled from the spec: bw2data `DatabaseParameter.expired(db)`. -/
def DatabaseParameter.expired (s : Store) (db : String) : Bool :=
  match lookupGroup s db with
  | some fresh => !fresh
  | none => false

/-- Parameters of one Database group. -/
def dbParamsOf (s : Store) (db : String) : List MParam :=
  (s.dbParams.filter (fun r => r.1 = db)).map (·.2)

/-- Modelled from the spec: bw2data `DatabaseParameter.recalculate(db)` —
ancestor chain Database → Project (§4.3): own parameters shadow the
project table; commit amounts and freshen the `db` group. -/
def DatabaseParameter.recalculate (s : Store) (db : String) : Res :=
  match evaluateParameterSet (ProjectParameter.static s) (dbParamsOf s db) with
  | .error e => ⟨s, [], some e⟩
  | .ok amounts =>
    ⟨freshenGroup
      { s with dbParams := s.dbParams.map (fun r =>
          if r.1 = db then
            (r.1, match lookupTbl amounts r.2.name with
                  | some v => { r.2 with amount := v }
                  | none => r.2)
          else r) } db,
     (dbParamsOf s db).map (fun p => Ev.writeParam p.name), none⟩

/-- Parameters of one Activity group. -/
def actParamsOf (s : Store) (g : String) : List ActParam :=
  s.actParams.filter (fun a => a.group = g)

/-- View an activity row as a plain parameter row. -/
def actToM (a : ActParam) : MParam := ⟨a.name, a.formula, a.amount, none⟩

/-- Modelled from the spec: the Activity layer's ancestor scopes — its
Database's resolved amounts, then (lower precedence) the Project table
(§4.3). -/
def activityGlobals (s : Store) (g : String) : List (String × Rat) :=
  ((s.dbParams.filter (fun r => (actParamsOf s g).any (fun a => a.database = r.1))).map
    (fun r => (r.2.name, r.2.amount))) ++ ProjectParameter.static s

/-- Modelled from the spec: bw2data `ActivityParameter.recalculate(g)` —
skip a fresh group (§4.4 step 2), otherwise evaluate the group's
parameters against own scope plus ancestors, commit and freshen `g`. -/
def ActivityParameter.recalculate (s : Store) (g : String) : Res :=
  if lookupGroup s g = some true then ⟨s, [], none⟩
  else
    match evaluateParameterSet (activityGlobals s g) ((actParamsOf s g).map actToM) with
    | .error e => ⟨s, [], some e⟩
    | .ok amounts =>
      ⟨freshenGroup
        { s with actParams := s.actParams.map (fun a =>
            if a.group = g then
              match lookupTbl amounts a.name with
              | some v => { a with amount := v }
              | none => a
            else a) } g,
       (actParamsOf s g).map (fun p => Ev.writeParam p.name), none⟩

/-- Modelled from the spec: bw2data `ActivityParameter.recalculate_exchanges(g)`
— evaluate each `ParameterizedExchange` of group `g` against the group's
symbol table and write the results into the external records (§4.4
step 4). -/
def ActivityParameter.recalculate_exchanges (s : Store) (g : String) : Res :=
  recalcExchangesLoop
    ((actParamsOf s g).map (fun a => (a.name, a.amount)) ++ activityGlobals s g)
    (s.pexchanges.filter (fun pe => pe.group = g)) s

/-! ## The Recalculation Orchestrator
(`MdaoParameterManager.recalculate`, source lines 303-318) -/

/-- Phase 1: `if ProjectParameter.expired(): ProjectParameter.recalculate()`. -/
def phaseProject (s : Store) : Res :=
  if ProjectParameter.expired s then
    let r := ProjectParameter.recalculate s
    ⟨r.st, Ev.visitProject :: r.evs, r.err⟩
  else ⟨s, [], none⟩

/-- Phase 2: `if MdaoParameter.expired(): MdaoParameter.recalculate()`. -/
def phaseMdao (s : Store) : Res :=
  if MdaoParameter.expired s then
    let r := MdaoParameter.recalculate s
    ⟨r.st, Ev.visitMdao :: r.evs, r.err⟩
  else ⟨s, [], none⟩

/-- Phase 3: `for db in databases: if DatabaseParameter.expired(db):
DatabaseParameter.recalculate(db)`. -/
def dbLoop : List String → Store → Res
  | [], s => ⟨s, [], none⟩
  | db :: rest, s =>
    Res.andThen
      (if DatabaseParameter.expired s db then
        let r := DatabaseParameter.recalculate s db
        ⟨r.st, Ev.visitDb db :: r.evs, r.err⟩
      else ⟨s, [], none⟩)
      (dbLoop rest)

/-- Phase 4: `for obj in Group.select().where(Group.fresh == False)` —
skip names that are databases or `'project'`, otherwise recalculate the
group's activity parameters and exchanges. -/
def actLoop (dbs : List String) : List String → Store → Res
  | [], s => ⟨s, [], none⟩
  | g :: rest, s =>
    Res.andThen
      (if g ∈ dbs || g = "project" then ⟨s, [], none⟩
      else
        let r := Res.andThen (ActivityParameter.recalculate s g)
          (fun st => ActivityParameter.recalculate_exchanges st g)
        ⟨r.st, Ev.visitAct g :: r.evs, r.err⟩)
      (actLoop dbs rest)

/-- The snapshot the phase-4 query iterates: names of the non-fresh
`Group` rows. -/
def staleGroups (s : Store) : List String :=
  (s.groups.filter (fun gf => gf.2 = false)).map (·.1)

/-- `MdaoParameterManager.recalculate()` (source lines 303-318): Project,
then the mdao group, then each Database, then every remaining non-fresh
group.  A raised error propagates, aborting the remaining phases. -/
def MdaoParameterManager.recalculate (s : Store) : Res :=
  Res.andThen (phaseProject s) (fun t1 =>
    Res.andThen (phaseMdao t1) (fun t2 =>
      Res.andThen (dbLoop t2.databases t2) (fun t3 =>
        actLoop t3.databases (staleGroups t3) t3)))

/-! ## Rename (Dependency-Chain Analyzer side)
(`MdaoParameterManager.rename_mdao_parameter`, source lines 268-301) -/

/-- Substring-based formula rewrite of one row (bw2data
`alter_parameter_formula` applied under a `formula.contains(old)`
filter). -/
def rewriteRowSub (old new : String) (p : MParam) : MParam :=
  match p.formula with
  | some f => if containsSub f old then { p with formula := some (pyReplace f old new) } else p
  | none => p

/-- Modelled from the spec: bw2data
`ProjectParameter.is_dependency_within_group(name)` — is `name` among the
symbols the project group's formulas reference. -/
def ProjectParameter.is_dependency_within_group (s : Store) (n : String) : Bool :=
  n ∈ neededSymbols s.projectParams

/-- Modelled from the spec: bw2data `DatabaseParameter.is_dependent_on(name)`
— does some database parameter's formula reference `name` (bw2data
matches with `formula.contains`). -/
def DatabaseParameter.is_dependent_on (s : Store) (n : String) : Bool :=
  s.dbParams.any (fun r =>
    match r.2.formula with
    | some f => containsSub f n
    | none => false)

/-- Modelled from the spec: bw2data
`ActivityParameter.is_dependent_on(name, group)` — does some activity
parameter, in a group recorded as depending on `group`, reference `name`. -/
def ActivityParameter.is_dependent_on (s : Store) (n g : String) : Bool :=
  s.actParams.any (fun a =>
    s.groupDeps.any (fun d => d.1 = a.group && d.2 = g) &&
    (match a.formula with
     | some f => containsSub f n
     | none => false))

/-- Modelled from the spec: bw2data
`ProjectParameter.update_formula_parameter_name(old, new)` — substring
rewrite of project formulas, then expire `'project'`. -/
def ProjectParameter.update_formula_parameter_name (s : Store) (old new : String) : Store :=
  expireGroup { s with projectParams := s.projectParams.map (rewriteRowSub old new) } "project"

/-- Modelled from the spec: bw2data
`DatabaseParameter.update_formula_project_parameter_name(old, new)` —
substring rewrite of database formulas, expiring the affected Database
groups. -/
def DatabaseParameter.update_formula_project_parameter_name (s : Store) (old new : String) : Store :=
  ((s.dbParams.filter (fun r =>
      match r.2.formula with
      | some f => containsSub f old
      | none => false)).map (·.1)).foldl expireGroup
    { s with dbParams := s.dbParams.map (fun r => (r.1, rewriteRowSub old new r.2)) }

/-- Modelled from the spec: bw2data
`ActivityParameter.update_formula_project_parameter_name(old, new)` —
substring rewrite of activity formulas, expiring the affected Activity
groups. -/
def ActivityParameter.update_formula_project_parameter_name (s : Store) (old new : String) : Store :=
  ((s.actParams.filter (fun a =>
      match a.formula with
      | some f => containsSub f old
      | none => false)).map (·.group)).foldl expireGroup
    { s with actParams := s.actParams.map (fun a =>
        match a.formula with
        | some f => if containsSub f old then { a with formula := some (pyReplace f old new) } else a
        | none => a) }

/-- `parameter.name = new_name; parameter.save()` inside the rename: the
bound row (primary key) keeps its identity, so the row previously named
`old` is updated in place; `save` expires `'lca4mdao'` first. -/
def renameRow (s : Store) (old new : String) : Res :=
  let s1 := expireGroup s "lca4mdao"
  ⟨{ s1 with mdaoParams := s1.mdaoParams.map (fun q =>
      if q.name = old then { q with name := new } else q) },
   [Ev.expireEv "lca4mdao", Ev.persistEv new], none⟩

/-- The cascade half of the rename transaction (source lines 291-298):
rewrite the project, database and activity formulas whose dependency flag
was set — the mdao group's own formulas are never rewritten. -/
def cascadeRewrites (s : Store) (old new : String) (project database activity : Bool) : Store :=
  let s1 := if project then ProjectParameter.update_formula_parameter_name s old new else s
  let s2 := if database then DatabaseParameter.update_formula_project_parameter_name s1 old new else s1
  if activity then ActivityParameter.update_formula_project_parameter_name s2 old new else s2

/-- `MdaoParameterManager.rename_mdao_parameter(parameter, new_name,
update_dependencies)` (source lines 268-301).  Dependency flags are
computed first (the mdao one may itself raise); without
`update_dependencies` any flag raises `ValueError` before any mutation.
Otherwise, inside one transaction: rewrite project, database and activity
formulas (never the mdao group's own), rename the row, and run the full
recalculation; an error rolls the whole transaction back. -/
def MdaoParameterManager.rename_mdao_parameter (s : Store) (old new : String)
    (update_dependencies : Bool) : Res :=
  if old = new then ⟨s, [], none⟩
  else
    match MdaoParameter.is_dependency_within_group s old with
    | .error e => ⟨s, [], some e⟩
    | .ok mdao =>
      let project := ProjectParameter.is_dependency_within_group s old
      let database := DatabaseParameter.is_dependent_on s old
      let activity := ActivityParameter.is_dependent_on s old "project"
      if !update_dependencies && (mdao || project || database || activity) then
        ⟨s, [], some .valueError⟩
      else
        let r := Res.andThen
          (renameRow (cascadeRewrites s old new project database activity) old new)
          MdaoParameterManager.recalculate
        match r.err with
        | some e => ⟨s, r.evs, some e⟩
        | none => r

/-! ## The external-input push path
(`LcaCalculationComponent.compute`, src/lca4mdao/component.py lines 29-42) -/

/-- `LcaCalculationComponent.compute(inputs, outputs)`, engine part: in
one transaction, write `inputs[param['mdao_name']]` into every mdao
parameter's amount; then expire `'lca4mdao'`; then recalculate the
exchanges.  A missing `mdao_name` key or input raises `KeyError`, rolling
the batch back.  The trailing LCA scoring reads no engine state and is
out of scope (spec §1). -/
def LcaCalculationComponent.compute (s : Store) (inputs : List (String × Rat)) : Res :=
  match (s.mdaoParams.mapM (fun p =>
    match p.mdaoName with
    | some mn => (lookupTbl inputs mn).map (fun v => (p.name, v))
    | none => none) : Option (List (String × Rat))) with
  | none => ⟨s, [], some .keyError⟩
  | some updates =>
    let s1 := { s with mdaoParams := applyAmounts updates s.mdaoParams }
    let s2 := expireGroup s1 "lca4mdao"
    Res.andThen
      ⟨s2, s.mdaoParams.map (fun p => Ev.writeParam p.name) ++ [Ev.expireEv "lca4mdao"], none⟩
      MdaoParameter.recalculate_exchanges

/-! ## Trace observers -/

/-- Is the event a group visit of the orchestrator? -/
def isVisit : Ev → Bool
  | .visitProject => true
  | .visitMdao => true
  | .visitDb _ => true
  | .visitAct _ => true
  | _ => false

/-- Visit events of a trace, in order. -/
def visitsOf (evs : List Ev) : List Ev := evs.filter isVisit

/-- Position of a visit in the order the source code walks the layers:
Project, mdao, Databases, Activities. -/
def codeRank : Ev → Nat
  | .visitProject => 0
  | .visitMdao => 1
  | .visitDb _ => 2
  | .visitAct _ => 3
  | _ => 4

/-- Position of a visit in the order the claim asserts: Project,
Databases, Activities, mdao last. -/
def specRank : Ev → Nat
  | .visitProject => 0
  | .visitDb _ => 1
  | .visitAct _ => 2
  | .visitMdao => 3
  | _ => 4

/-- Is the event a parameter-amount write? -/
def isParamWrite : Ev → Bool
  | .writeParam _ => true
  | _ => false

/-- Number of parameter-amount writes in a trace. -/
def paramWriteCount (evs : List Ev) : Nat := evs.countP isParamWrite

/-- Every `Group` row is fresh. -/
def allFresh (s : Store) : Bool := s.groups.all (fun gf => gf.2)

/-! ## C10 -/

/-- C10: on every store without a `Group` row named `'lca4mdao'`,
`MdaoParameter.expired()` returns `False` (the missing group reads as not
expired instead of raising), and consequently `MdaoParameter.recalculate()`
returns at once: no formula evaluated, no amount written, store
unchanged. -/
theorem C10_missing_group_reads_not_expired (s : Store)
    (h : lookupGroup s "lca4mdao" = none) :
    MdaoParameter.expired s = false ∧ MdaoParameter.recalculate s = ⟨s, [], none⟩ := by
  have hexp : MdaoParameter.expired s = false := by
    simp [MdaoParameter.expired, h]
  refine ⟨hexp, ?_⟩
  simp [MdaoParameter.recalculate, hexp]

/-- A store with parameters (one with a formula) but no Group rows at all. -/
def c10Store : Store :=
  ⟨[⟨"a", some "b*2", 0, none⟩, ⟨"b", none, 1, none⟩], [], [], [], [], [], [], [], [], []⟩

theorem C10_witness :
    lookupGroup c10Store "lca4mdao" = none ∧
    (MdaoParameter.expired c10Store = false ∧
      MdaoParameter.recalculate c10Store = ⟨c10Store, [], none⟩) :=
  ⟨rfl, C10_missing_group_reads_not_expired c10Store rfl⟩

/-! ## C2 -/

theorem neededSymbols_nil : neededSymbols [] = [] := rfl

theorem missing_ne_nil_params_ne_nil (ps : List MParam)
    (h : missingSymbols ps ≠ []) : ps ≠ [] := by
  intro hnil
  apply h
  subst hnil
  rfl

/-- The missing-name filter of `evaluateParameterSet` with no globals is
exactly `missingSymbols`. -/
theorem eps_missing_no_globals (ps : List MParam) :
    ((neededSymbols ps).filter (fun n =>
      !(ps.any (fun p => p.name = n)) && !(([] : List (String × Rat)).any (fun kv => kv.1 = n))))
      = missingSymbols ps := by
  simp [missingSymbols]

/-- C2: if any mdao formula references a name defined neither by the mdao
parameters themselves nor among the evaluator's builtin symbols, then the
group recompute fails with a missing-name error listing every unresolved
name, writes nothing (the store is returned unchanged, so the group is
still expired), and `dependency_chain` reports the same full list. -/
theorem C2_missing_symbol_aborts_group (s : Store)
    (hexp : MdaoParameter.expired s = true)
    (hmiss : missingSymbols s.mdaoParams ≠ []) :
    MdaoParameter.recalculate s =
      ⟨s, [], some (.missingName (missingSymbols s.mdaoParams))⟩ ∧
    MdaoParameter.dependency_chain s =
      .error (.missingName (missingSymbols s.mdaoParams)) ∧
    MdaoParameter.expired s = true := by
  have hps : s.mdaoParams ≠ [] := missing_ne_nil_params_ne_nil _ hmiss
  have hneeded : neededSymbols s.mdaoParams ≠ [] := by
    intro hnil
    apply hmiss
    simp [missingSymbols, hnil]
  refine ⟨?_, ?_, hexp⟩
  · have hempty : s.mdaoParams.isEmpty = false := by
      simpa [List.isEmpty_iff] using hps
    simp only [MdaoParameter.recalculate, hexp, Bool.not_true, Bool.false_eq_true, if_false,
      hempty, evaluateParameterSet, eps_missing_no_globals]
    rw [if_neg (by simpa [List.isEmpty_iff] using hmiss)]
  · have hpsE : s.mdaoParams.isEmpty = false := by
      simpa [List.isEmpty_iff] using hps
    have hneE : (neededSymbols s.mdaoParams).isEmpty = false := by
      simpa [List.isEmpty_iff] using hneeded
    simp only [MdaoParameter.dependency_chain, hpsE, Bool.false_eq_true, if_false, hneE]
    rw [if_neg (by simpa [List.isEmpty_iff, missingSymbols] using hmiss)]
    rfl

/-- An expired mdao group whose single formula references an undefined
name. -/
def c2Store : Store :=
  ⟨[⟨"a", some "undefined_var*2", 0, none⟩], [], [], [], [], [],
   [("lca4mdao", false)], [], [], []⟩

theorem C2_witness :
    (MdaoParameter.expired c2Store = true ∧
      missingSymbols c2Store.mdaoParams = ["undefined_var"]) ∧
    (MdaoParameter.recalculate c2Store =
        ⟨c2Store, [], some (.missingName (missingSymbols c2Store.mdaoParams))⟩ ∧
      MdaoParameter.dependency_chain c2Store =
        .error (.missingName (missingSymbols c2Store.mdaoParams)) ∧
      MdaoParameter.expired c2Store = true) :=
  ⟨⟨rfl, rfl⟩, C2_missing_symbol_aborts_group c2Store rfl (by decide)⟩

/-! ## Group-row lemmas -/

theorem setGroup_mdaoParams (s : Store) (g : String) (b : Bool) :
    (setGroup s g b).mdaoParams = s.mdaoParams := by
  simp only [setGroup]
  split <;> rfl

theorem setGroup_groupDeps (s : Store) (g : String) (b : Bool) :
    (setGroup s g b).groupDeps = s.groupDeps := by
  simp only [setGroup]
  split <;> rfl

theorem setGroup_databases (s : Store) (g : String) (b : Bool) :
    (setGroup s g b).databases = s.databases := by
  simp only [setGroup]
  split <;> rfl

theorem freshenGroup_mdaoParams (s : Store) (g : String) :
    (freshenGroup s g).mdaoParams = s.mdaoParams :=
  setGroup_mdaoParams s g true

theorem expireGroup_mdaoParams (s : Store) (g : String) :
    (expireGroup s g).mdaoParams = s.mdaoParams :=
  setGroup_mdaoParams s g false

theorem find_map_update (g : String) (b : Bool) (l : List (String × Bool))
    (h : l.any (fun gf => gf.1 = g) = true) :
    (l.map (fun gf => if gf.1 = g then (gf.1, b) else gf)).find? (fun gf => gf.1 = g)
      = some (g, b) := by
  induction l with
  | nil => simp at h
  | cons hd tl ih =>
    by_cases hh : hd.1 = g
    · subst hh
      simp [List.find?]
    · have h' : tl.any (fun gf => gf.1 = g) = true := by
        simpa [List.any_cons, hh] using h
      simpa [List.find?, hh] using ih h'

theorem find_append_new (g : String) (b : Bool) (l : List (String × Bool))
    (h : l.any (fun gf => gf.1 = g) = false) :
    (l ++ [(g, b)]).find? (fun gf => gf.1 = g) = some (g, b) := by
  induction l with
  | nil => simp [List.find?]
  | cons hd tl ih =>
    have hh : (hd.1 = g) = False := by
      by_cases hx : hd.1 = g
      · simp [List.any_cons, hx] at h
      · simp [hx]
    have h' : tl.any (fun gf => gf.1 = g) = false := by
      rw [List.any_cons] at h
      cases hx : tl.any (fun gf => gf.1 = g)
      · rfl
      · rw [hx, Bool.or_true] at h
        exact absurd h (by simp)
    simpa [List.find?, hh] using ih h'

/-- After `setGroup s g b`, the row for `g` reads `b`. -/
theorem lookupGroup_setGroup_self (s : Store) (g : String) (b : Bool) :
    lookupGroup (setGroup s g b) g = some b := by
  simp only [lookupGroup, setGroup]
  by_cases h : s.groups.any (fun gf => gf.1 = g) = true
  · simp only [h, if_true, find_map_update g b s.groups h]
    rfl
  · have h' : s.groups.any (fun gf => gf.1 = g) = false := by
      revert h
      cases s.groups.any (fun gf => gf.1 = g) <;> simp
    simp only [h', Bool.false_eq_true, if_false, find_append_new g b s.groups h']
    rfl

/-! ## C4 -/

/-- A parameter `x` and a formula in which `x` occurs only inside the
longer identifier `x2`. -/
def c4Store : Store :=
  ⟨[⟨"a", some "x2*3", 0, none⟩, ⟨"x", none, 1, none⟩], [], [], [], [], [],
   [("lca4mdao", true)], [], [], []⟩

/-- C4 counterexample: renaming `x` to `y` rewrites the formula `x2*3` —
in which `x` occurs only as a proper substring of the identifier `x2` —
into `y2*3`; the claim's protected case is corrupted instead of being
left unchanged. -/
theorem C4_counterexample :
    (MdaoParameter.update_formula_parameter_name c4Store "x" "y").mdaoParams.map (·.formula)
      = [some "y2*3", none] ∧ (some "y2*3" : Option String) ≠ some "x2*3" := by
  constructor
  · rfl
  · decide

/-- C4 amended: `update_formula_parameter_name` rewrites by raw substring
replacement: every parameter whose formula contains `old` as a substring
— also when `old` occurs only inside a longer identifier — is stored back
with every occurrence of `old` replaced (Python `str.replace`
semantics); a formula not containing the substring is kept; names and
amounts never change; and the mdao group is expired. -/
theorem C4_substring_rewrite (s : Store) (old new : String) (p : MParam)
    (hp : p ∈ s.mdaoParams) :
    (∃ q ∈ (MdaoParameter.update_formula_parameter_name s old new).mdaoParams,
      q.name = p.name ∧ q.amount = p.amount ∧
      q.formula = (match p.formula with
        | some f => if containsSub f old then some (pyReplace f old new) else some f
        | none => none)) ∧
    MdaoParameter.expired (MdaoParameter.update_formula_parameter_name s old new) = true := by
  constructor
  · refine ⟨(fun p => match p.formula with
      | some f => if containsSub f old then { p with formula := some (pyReplace f old new) } else p
      | none => p) p, ?_, ?_⟩
    · simp only [MdaoParameter.update_formula_parameter_name, expireGroup, setGroup_mdaoParams]
      exact List.mem_map_of_mem _ hp
    · cases hf : p.formula with
      | none => simp [hf]
      | some f =>
        by_cases hc : containsSub f old
        · simp [hf, hc]
        · simp [hf, hc]
  · simp only [MdaoParameter.update_formula_parameter_name, expireGroup, MdaoParameter.expired,
      lookupGroup_setGroup_self]
    rfl

theorem C4_substring_rewrite_witness :
    (⟨"x", none, 1, none⟩ : MParam) ∈ c4Store.mdaoParams ∧
    ((∃ q ∈ (MdaoParameter.update_formula_parameter_name c4Store "x" "y").mdaoParams,
      q.name = "x" ∧ q.amount = 1 ∧ q.formula = none) ∧
    MdaoParameter.expired (MdaoParameter.update_formula_parameter_name c4Store "x" "y") = true) := by
  refine ⟨by decide, ?_⟩
  simpa using C4_substring_rewrite c4Store "x" "y" ⟨"x", none, 1, none⟩ (by decide)

/-! ## Evaluator lemmas -/

/-- A referenced name absent from the table makes the whole evaluation
fail. -/
theorem evalE_var_missing (tbl : List (String × Rat)) (e : FExpr) (n : String)
    (hn : n ∈ varsE e) (hm : lookupTbl tbl n = none) : evalE tbl e = none := by
  induction e with
  | num q => simp [varsE] at hn
  | var m =>
    simp only [varsE, List.mem_singleton] at hn
    subst hn
    simpa [evalE] using hm
  | neg a ih => simp [evalE, ih (by simpa [varsE] using hn)]
  | add a b iha ihb =>
    rcases List.mem_append.mp (by simpa [varsE] using hn) with h | h
    · simp [evalE, iha h]
    · cases hx : evalE tbl a <;> simp [evalE, hx, ihb h]
  | sub a b iha ihb =>
    rcases List.mem_append.mp (by simpa [varsE] using hn) with h | h
    · simp [evalE, iha h]
    · cases hx : evalE tbl a <;> simp [evalE, hx, ihb h]
  | mul a b iha ihb =>
    rcases List.mem_append.mp (by simpa [varsE] using hn) with h | h
    · simp [evalE, iha h]
    · cases hx : evalE tbl a <;> simp [evalE, hx, ihb h]
  | div a b iha ihb =>
    rcases List.mem_append.mp (by simpa [varsE] using hn) with h | h
    · simp [evalE, iha h]
    · cases hx : evalE tbl a <;> simp [evalE, hx, ihb h]
  | pow a b iha ihb =>
    rcases List.mem_append.mp (by simpa [varsE] using hn) with h | h
    · simp [evalE, iha h]
    · cases hx : evalE tbl a <;> simp [evalE, hx, ihb h]

/-- Evaluation reads nothing but the referenced names' bindings. -/
theorem evalE_congr (t1 t2 : List (String × Rat)) (e : FExpr)
    (h : ∀ n ∈ varsE e, lookupTbl t1 n = lookupTbl t2 n) :
    evalE t1 e = evalE t2 e := by
  induction e with
  | num q => rfl
  | var m => simpa [evalE] using h m (by simp [varsE])
  | neg a ih => simp [evalE, ih (fun n hn => h n (by simpa [varsE] using hn))]
  | add a b iha ihb =>
    have h1 := iha (fun n hn => h n (by simp [varsE, List.mem_append, hn]))
    have h2 := ihb (fun n hn => h n (by simp [varsE, List.mem_append, hn]))
    simp [evalE, h1, h2]
  | sub a b iha ihb =>
    have h1 := iha (fun n hn => h n (by simp [varsE, List.mem_append, hn]))
    have h2 := ihb (fun n hn => h n (by simp [varsE, List.mem_append, hn]))
    simp [evalE, h1, h2]
  | mul a b iha ihb =>
    have h1 := iha (fun n hn => h n (by simp [varsE, List.mem_append, hn]))
    have h2 := ihb (fun n hn => h n (by simp [varsE, List.mem_append, hn]))
    simp [evalE, h1, h2]
  | div a b iha ihb =>
    have h1 := iha (fun n hn => h n (by simp [varsE, List.mem_append, hn]))
    have h2 := ihb (fun n hn => h n (by simp [varsE, List.mem_append, hn]))
    simp [evalE, h1, h2]
  | pow a b iha ihb =>
    have h1 := iha (fun n hn => h n (by simp [varsE, List.mem_append, hn]))
    have h2 := ihb (fun n hn => h n (by simp [varsE, List.mem_append, hn]))
    simp [evalE, h1, h2]

theorem evalFormula_missing (tbl : List (String × Rat)) (f : String) (n : String)
    (hn : n ∈ varsOfFormula f) (hm : lookupTbl tbl n = none) :
    evalFormula tbl f = none := by
  unfold varsOfFormula at hn
  unfold evalFormula
  cases hp : parseFormula f with
  | none => rfl
  | some e =>
    rw [hp] at hn
    exact evalE_var_missing tbl e n (List.mem_dedup.mp hn) hm

theorem evalFormula_congr (t1 t2 : List (String × Rat)) (f : String)
    (h : ∀ n ∈ varsOfFormula f, lookupTbl t1 n = lookupTbl t2 n) :
    evalFormula t1 f = evalFormula t2 f := by
  unfold varsOfFormula at h
  unfold evalFormula
  cases hp : parseFormula f with
  | none => rfl
  | some e =>
    rw [hp] at h
    exact evalE_congr t1 t2 e (fun n hn => h n (List.mem_dedup.mpr hn))

/-! ## Exchange-loop lemmas -/

/-- The stored amount of the external exchange record `id`. -/
def exchangeAmount (s : Store) (id : Nat) : Option (Option Rat) :=
  (s.exchangeData.find? (fun e => e.id = id)).map (·.amount)

theorem setDirty_exchangeData (s : Store) (db : String) :
    (setDirty s db).exchangeData = s.exchangeData := by
  simp only [setDirty]
  split <;> rfl

theorem findAmount_map_update_self (l : List ExchangeDS) (id : Nat) (v : Option Rat)
    (h : l.any (fun e => e.id = id) = true) :
    ((l.map (fun e => if e.id = id then { e with amount := v } else e)).find?
      (fun e => e.id = id)).map (·.amount) = some v := by
  induction l with
  | nil => simp at h
  | cons hd tl ih =>
    by_cases hh : hd.id = id
    · simp [List.find?, hh]
    · have h' : tl.any (fun e => e.id = id) = true := by
        simpa [List.any_cons, hh] using h
      simpa [List.find?, hh] using ih h'

theorem findAmount_map_update_other (l : List ExchangeDS) (id id' : Nat) (v : Option Rat)
    (h : id' ≠ id) :
    ((l.map (fun e => if e.id = id then { e with amount := v } else e)).find?
      (fun e => e.id = id')).map (·.amount)
      = (l.find? (fun e => e.id = id')).map (·.amount) := by
  induction l with
  | nil => rfl
  | cons hd tl ih =>
    rw [List.map_cons]
    by_cases hh' : hd.id = id'
    · have hh : ¬ hd.id = id := fun hx => h (hh'.symm.trans hx)
      rw [if_neg hh, List.find?_cons_of_pos _ (by simpa using hh'),
          List.find?_cons_of_pos _ (by simpa using hh')]
    · have hmap : (if hd.id = id then { hd with amount := v } else hd).id = hd.id := by
        split <;> rfl
      rw [List.find?_cons_of_neg _ (by simp [hmap, hh']),
          List.find?_cons_of_neg _ (by simpa using hh')]
      exact ih

theorem any_id_map_update (l : List ExchangeDS) (id0 : Nat) (v : Option Rat) (id : Nat) :
    (l.map (fun e => if e.id = id0 then { e with amount := v } else e)).any
      (fun e => e.id = id) = l.any (fun e => e.id = id) := by
  induction l with
  | nil => rfl
  | cons hd tl ih =>
    by_cases hh : hd.id = id0 <;> simp [List.any_cons, hh, ih]

/-- The write-step store of one loop iteration. -/
def exchWriteStep (s : Store) (id : Nat) (v : Option Rat) (db : String) : Store :=
  setDirty
    { s with exchangeData := s.exchangeData.map (fun e =>
        if e.id = id then { e with amount := v } else e) } db

theorem recalcLoop_step (tbl : List (String × Rat)) (q : PExchange) (rest : List PExchange)
    (s : Store) (exc : ExchangeDS)
    (hf : s.exchangeData.find? (fun e => e.id = q.exchange) = some exc) :
    recalcExchangesLoop tbl (q :: rest) s =
      Res.andThen
        ⟨exchWriteStep s q.exchange (evalFormula tbl q.formula) exc.outputDatabase,
          [Ev.writeExch q.exchange], none⟩
        (recalcExchangesLoop tbl rest) := by
  simp [recalcExchangesLoop, hf, exchWriteStep]

theorem recalcLoop_amount_other (tbl : List (String × Rat)) (l : List PExchange) (s : Store)
    (id : Nat) (hid : ∀ q ∈ l, q.exchange ≠ id) :
    exchangeAmount (recalcExchangesLoop tbl l s).st id = exchangeAmount s id := by
  induction l generalizing s with
  | nil => rfl
  | cons q rest ih =>
    cases hf : s.exchangeData.find? (fun e => e.id = q.exchange) with
    | none => simp [recalcExchangesLoop, hf]
    | some exc =>
      rw [recalcLoop_step tbl q rest s exc hf]
      have hq : q.exchange ≠ id := hid q (by simp)
      have hrest : ∀ r ∈ rest, r.exchange ≠ id := fun r hr => hid r (by simp [hr])
      simp only [Res.andThen]
      rw [ih _ hrest]
      simp only [exchangeAmount, exchWriteStep, setDirty_exchangeData]
      exact findAmount_map_update_other s.exchangeData q.exchange id _ (fun hx => hq hx.symm)

theorem recalcLoop_err_none (tbl : List (String × Rat)) (l : List PExchange) (s : Store)
    (hrows : ∀ q ∈ l, s.exchangeData.any (fun e => e.id = q.exchange) = true) :
    (recalcExchangesLoop tbl l s).err = none := by
  induction l generalizing s with
  | nil => rfl
  | cons q rest ih =>
    cases hf : s.exchangeData.find? (fun e => e.id = q.exchange) with
    | none =>
      exfalso
      have := hrows q (by simp)
      rcases List.any_eq_true.mp this with ⟨x, hx, hpx⟩
      have := List.find?_eq_none.mp hf x hx
      exact this hpx
    | some exc =>
      rw [recalcLoop_step tbl q rest s exc hf]
      simp only [Res.andThen]
      apply ih
      intro r hr
      simp only [exchWriteStep, setDirty_exchangeData, any_id_map_update]
      exact hrows r (by simp [hr])

theorem recalcLoop_evs (tbl : List (String × Rat)) (l : List PExchange) (s : Store)
    (hrows : ∀ q ∈ l, s.exchangeData.any (fun e => e.id = q.exchange) = true) :
    (recalcExchangesLoop tbl l s).evs = l.map (fun q => Ev.writeExch q.exchange) := by
  induction l generalizing s with
  | nil => rfl
  | cons q rest ih =>
    cases hf : s.exchangeData.find? (fun e => e.id = q.exchange) with
    | none =>
      exfalso
      have := hrows q (by simp)
      rcases List.any_eq_true.mp this with ⟨x, hx, hpx⟩
      exact (List.find?_eq_none.mp hf x hx) hpx
    | some exc =>
      rw [recalcLoop_step tbl q rest s exc hf]
      simp only [Res.andThen]
      rw [ih]
      · simp
      · intro r hr
        simp only [exchWriteStep, setDirty_exchangeData, any_id_map_update]
        exact hrows r (by simp [hr])

theorem recalcLoop_amount_mem (tbl : List (String × Rat)) (l : List PExchange) (s : Store)
    (pe : PExchange) (hpe : pe ∈ l)
    (hnodup : (l.map (fun q => q.exchange)).Nodup)
    (hrows : ∀ q ∈ l, s.exchangeData.any (fun e => e.id = q.exchange) = true) :
    exchangeAmount (recalcExchangesLoop tbl l s).st pe.exchange
      = some (evalFormula tbl pe.formula) := by
  induction l generalizing s with
  | nil => cases hpe
  | cons q rest ih =>
    cases hf : s.exchangeData.find? (fun e => e.id = q.exchange) with
    | none =>
      exfalso
      have := hrows q (by simp)
      rcases List.any_eq_true.mp this with ⟨x, hx, hpx⟩
      exact (List.find?_eq_none.mp hf x hx) hpx
    | some exc =>
      rw [recalcLoop_step tbl q rest s exc hf]
      simp only [Res.andThen]
      have hnd := List.nodup_cons.mp (by rw [List.map_cons] at hnodup; exact hnodup)
      rcases List.mem_cons.mp hpe with rfl | hpe'
      · have hrest : ∀ r ∈ rest, r.exchange ≠ pe.exchange := by
          intro r hr hx
          exact hnd.1 (by simpa [hx] using List.mem_map_of_mem (fun q => q.exchange) hr)
        rw [recalcLoop_amount_other tbl rest _ pe.exchange hrest]
        simp only [exchangeAmount, exchWriteStep, setDirty_exchangeData]
        apply findAmount_map_update_self
        exact hrows pe (by simp)
      · apply ih _ hpe' hnd.2
        intro r hr
        simp only [exchWriteStep, setDirty_exchangeData, any_id_map_update]
        exact hrows r (by simp [hr])

/-! ## C6, C7, C8 -/

/-- With the mdao group fresh, exchange recomputation is exactly the
write loop over the group's exchanges, with symbol table
`MdaoParameter.static`. -/
theorem recalc_exch_not_expired (s : Store) (h : MdaoParameter.expired s = false) :
    MdaoParameter.recalculate_exchanges s =
      recalcExchangesLoop (MdaoParameter.static s)
        (s.pexchanges.filter (fun pe => pe.group = "lca4mdao")) s := by
  simp [MdaoParameter.recalculate_exchanges, h, Res.andThen]

/-- Project defines `p = 5`; the mdao group is fresh and owns no
parameter named `p`; one mdao exchange has formula `p`. -/
def c6Store : Store :=
  ⟨[], [⟨"p", none, 5, none⟩], [], [], [⟨"lca4mdao", 1, "p"⟩],
   [⟨1, some 0, "db1"⟩], [("lca4mdao", true)], [], [], []⟩

/-- C6 counterexample: `p` is defined in the Project (ancestor) layer
with amount 5, yet the symbol table used for mdao exchange recomputation
(`MdaoParameter.static`) does not contain it, and the exchange whose
formula is exactly `p` is written back as `None` instead of evaluating to
5: an ancestor-layer name does not resolve, refuting the claimed
own-plus-ancestors union. -/
theorem C6_counterexample :
    ProjectParameter.static c6Store = [("p", 5)] ∧
    lookupTbl (MdaoParameter.static c6Store) "p" = none ∧
    (MdaoParameter.recalculate_exchanges c6Store).err = none ∧
    exchangeAmount (MdaoParameter.recalculate_exchanges c6Store).st 1 = some none := by
  refine ⟨rfl, rfl, rfl, rfl⟩

/-- C6 amended: the symbol table used to evaluate the mdao group's
parameterized exchanges consists solely of the mdao group's own
parameters' amounts (`MdaoParameter.static`); a formula referencing a
name absent from that table — for example one defined only in an
ancestor layer — does not evaluate: the exchange's amount is written as
`None`. -/
theorem C6_own_scope_only (s : Store) (pe : PExchange) (n : String)
    (hfresh : MdaoParameter.expired s = false)
    (hpe : pe ∈ s.pexchanges) (hg : pe.group = "lca4mdao")
    (hn : n ∈ varsOfFormula pe.formula)
    (hmiss : lookupTbl (MdaoParameter.static s) n = none)
    (hnodup : ((s.pexchanges.filter (fun q => q.group = "lca4mdao")).map
      (fun q => q.exchange)).Nodup)
    (hrows : ∀ q ∈ s.pexchanges.filter (fun q => q.group = "lca4mdao"),
      s.exchangeData.any (fun e => e.id = q.exchange) = true) :
    exchangeAmount (MdaoParameter.recalculate_exchanges s).st pe.exchange = some none := by
  rw [recalc_exch_not_expired s hfresh]
  have hpe' : pe ∈ s.pexchanges.filter (fun q => q.group = "lca4mdao") :=
    List.mem_filter.mpr ⟨hpe, by simp [hg]⟩
  rw [recalcLoop_amount_mem _ _ _ pe hpe' hnodup hrows,
    evalFormula_missing _ _ n hn hmiss]

theorem C6_witness :
    exchangeAmount (MdaoParameter.recalculate_exchanges c6Store).st 1 = some none :=
  C6_own_scope_only c6Store ⟨"lca4mdao", 1, "p"⟩ "p" rfl (by decide) rfl (by decide) rfl
    (by decide) (by decide)

/-- One mdao exchange with an unresolvable formula followed by one with a
resolvable formula; both external records hold previous amounts. -/
def c7Store : Store :=
  ⟨[⟨"x", none, 2, none⟩], [], [], [],
   [⟨"lca4mdao", 1, "missing_name"⟩, ⟨"lca4mdao", 2, "x"⟩],
   [⟨1, some 7, "db1"⟩, ⟨2, some 0, "db1"⟩],
   [("lca4mdao", true)], [], [], []⟩

/-- C7 counterexample: the first exchange's formula fails to evaluate;
the loop indeed continues to the second exchange, but no error is
reported (`err = none`) and the failed evaluation is written as the first
exchange's amount: its previous stored amount 7 is overwritten with
`None`.  This refutes the claim that every failure is collected and
reported rather than silently swallowed or written as an invalid
amount. -/
theorem C7_counterexample :
    (MdaoParameter.recalculate_exchanges c7Store).err = none ∧
    exchangeAmount c7Store 1 = some (some 7) ∧
    exchangeAmount (MdaoParameter.recalculate_exchanges c7Store).st 1 = some none ∧
    exchangeAmount (MdaoParameter.recalculate_exchanges c7Store).st 2 = some (some 2) := by
  refine ⟨rfl, rfl, rfl, rfl⟩

/-- C7 amended: the failure of one exchange's formula evaluation does not
block recomputation of the remaining exchanges (every exchange of the
group is written, in order), but the failures are not collected or
reported: the operation returns no error and each failed evaluation's
`None` result is written as that exchange's amount. -/
theorem C7_failures_silent_not_blocking (s : Store)
    (hfresh : MdaoParameter.expired s = false)
    (hrows : ∀ q ∈ s.pexchanges.filter (fun q => q.group = "lca4mdao"),
      s.exchangeData.any (fun e => e.id = q.exchange) = true) :
    (MdaoParameter.recalculate_exchanges s).err = none ∧
    (MdaoParameter.recalculate_exchanges s).evs =
      (s.pexchanges.filter (fun q => q.group = "lca4mdao")).map
        (fun q => Ev.writeExch q.exchange) := by
  rw [recalc_exch_not_expired s hfresh]
  exact ⟨recalcLoop_err_none _ _ _ hrows, recalcLoop_evs _ _ _ hrows⟩

theorem C7_witness :
    (MdaoParameter.recalculate_exchanges c7Store).err = none ∧
    (MdaoParameter.recalculate_exchanges c7Store).evs =
      (c7Store.pexchanges.filter (fun q => q.group = "lca4mdao")).map
        (fun q => Ev.writeExch q.exchange) :=
  C7_failures_silent_not_blocking c7Store rfl (by decide)

/-- A fresh mdao group with no parameters and one exchange referencing an
undefined name. -/
def c8Store : Store :=
  ⟨[], [], [], [], [⟨"lca4mdao", 1, "undefined_name"⟩], [⟨1, some 3, "db"⟩],
   [("lca4mdao", true)], [], [], []⟩

/-- C8 counterexample: the exchange formula references `undefined_name`,
absent from the supplied symbol table; the claim asserts this fails with
a missing-symbol error, but the operation reports no error at all and
silently writes `None` over the previous amount 3. -/
theorem C8_counterexample :
    "undefined_name" ∈ varsOfFormula "undefined_name" ∧
    lookupTbl (MdaoParameter.static c8Store) "undefined_name" = none ∧
    (MdaoParameter.recalculate_exchanges c8Store).err = none ∧
    exchangeAmount (MdaoParameter.recalculate_exchanges c8Store).st 1 = some none := by
  refine ⟨by decide, rfl, rfl, rfl⟩

/-- C8 amended: formula evaluation reads no state outside the supplied
symbol table — two tables that agree on every name the formula references
produce identical results — and a formula referencing a name absent from
the table yields `None` (no value is fabricated from other bindings);
however no missing-symbol error is raised: the `None` is what the
exchange loop writes back as the amount. -/
theorem C8_eval_reads_only_table (t1 t2 : List (String × Rat)) (f : String)
    (hagree : ∀ m ∈ varsOfFormula f, lookupTbl t1 m = lookupTbl t2 m) :
    evalFormula t1 f = evalFormula t2 f ∧
    (∀ n ∈ varsOfFormula f, lookupTbl t1 n = none → evalFormula t1 f = none) :=
  ⟨evalFormula_congr t1 t2 f hagree, fun n hn hm => evalFormula_missing t1 f n hn hm⟩

theorem C8_witness :
    evalFormula [("a", 1), ("b", 5)] "a+1" = evalFormula [("a", 1)] "a+1" ∧
    (∀ n ∈ varsOfFormula "a+1",
      lookupTbl [("a", 1), ("b", 5)] n = none →
        evalFormula [("a", 1), ("b", 5)] "a+1" = none) :=
  C8_eval_reads_only_table [("a", 1), ("b", 5)] [("a", 1)] "a+1" (by decide)

/-! ## C1: visit order -/

theorem andThen_evs (r : Res) (f : Store → Res) :
    (r.andThen f).evs = r.evs ∨ (r.andThen f).evs = r.evs ++ (f r.st).evs := by
  unfold Res.andThen
  cases r.err <;> simp

theorem andThen_forall {P : Ev → Prop} (r : Res) (f : Store → Res)
    (h1 : ∀ v ∈ r.evs, P v) (h2 : ∀ t, ∀ v ∈ (f t).evs, P v) :
    ∀ v ∈ (r.andThen f).evs, P v := by
  rcases andThen_evs r f with h | h <;> rw [h]
  · exact h1
  · intro v hv
    rcases List.mem_append.mp hv with hv | hv
    · exact h1 v hv
    · exact h2 _ v hv

theorem no_visits_writeParams {α : Type} (g : α → String) (l : List α) :
    ∀ v ∈ l.map (fun p => Ev.writeParam (g p)), isVisit v = false := by
  intro v hv
  rcases List.mem_map.mp hv with ⟨p, _, rfl⟩
  rfl

theorem no_visits_ProjectParameter_recalculate (s : Store) :
    ∀ v ∈ (ProjectParameter.recalculate s).evs, isVisit v = false := by
  unfold ProjectParameter.recalculate
  cases evaluateParameterSet [] s.projectParams with
  | error e => simp
  | ok amounts => exact no_visits_writeParams (fun p => p.name) s.projectParams

theorem no_visits_MdaoParameter_recalculate (s : Store) :
    ∀ v ∈ (MdaoParameter.recalculate s).evs, isVisit v = false := by
  unfold MdaoParameter.recalculate
  by_cases h1 : MdaoParameter.expired s
  · by_cases h2 : s.mdaoParams.isEmpty
    · simp [h1, h2]
    · cases h3 : evaluateParameterSet [] s.mdaoParams with
      | error e => simp [h1, h2, h3]
      | ok amounts =>
        simp only [h1, h2, h3, Bool.not_true, Bool.false_eq_true, if_false]
        exact no_visits_writeParams (fun p => p.name) s.mdaoParams
  · simp [h1]

theorem no_visits_DatabaseParameter_recalculate (s : Store) (db : String) :
    ∀ v ∈ (DatabaseParameter.recalculate s db).evs, isVisit v = false := by
  unfold DatabaseParameter.recalculate
  cases evaluateParameterSet (ProjectParameter.static s) (dbParamsOf s db) with
  | error e => simp
  | ok amounts => exact no_visits_writeParams (fun p => p.name) (dbParamsOf s db)

theorem no_visits_ActivityParameter_recalculate (s : Store) (g : String) :
    ∀ v ∈ (ActivityParameter.recalculate s g).evs, isVisit v = false := by
  unfold ActivityParameter.recalculate
  by_cases h1 : lookupGroup s g = some true
  · simp [h1]
  · cases h2 : evaluateParameterSet (activityGlobals s g) ((actParamsOf s g).map actToM) with
    | error e => simp [h1, h2]
    | ok amounts =>
      simp only [h1, h2, if_false]
      exact no_visits_writeParams (fun p => p.name) (actParamsOf s g)

theorem no_visits_recalcLoop (tbl : List (String × Rat)) (l : List PExchange) (s : Store) :
    ∀ v ∈ (recalcExchangesLoop tbl l s).evs, isVisit v = false := by
  induction l generalizing s with
  | nil => simp [recalcExchangesLoop]
  | cons q rest ih =>
    unfold recalcExchangesLoop
    cases s.exchangeData.find? (fun e => e.id = q.exchange) with
    | none => simp
    | some exc =>
      apply andThen_forall
      · intro v hv
        simp only [List.mem_singleton] at hv
        subst hv
        rfl
      · intro t
        exact ih t

theorem no_visits_ActivityParameter_recalculate_exchanges (s : Store) (g : String) :
    ∀ v ∈ (ActivityParameter.recalculate_exchanges s g).evs, isVisit v = false :=
  no_visits_recalcLoop _ _ s

/-- Every visit event of phase 1 is the Project visit. -/
theorem visits_phaseProject (s : Store) :
    ∀ v ∈ (phaseProject s).evs, isVisit v = true → v = Ev.visitProject := by
  unfold phaseProject
  by_cases h : ProjectParameter.expired s = true
  · simp only [h, if_true]
    intro v hv _
    rcases List.mem_cons.mp hv with rfl | hv'
    · rfl
    · exact absurd (no_visits_ProjectParameter_recalculate s v hv') (by simp_all)
  · simp [h]

theorem visits_phaseMdao (s : Store) :
    ∀ v ∈ (phaseMdao s).evs, isVisit v = true → v = Ev.visitMdao := by
  unfold phaseMdao
  by_cases h : MdaoParameter.expired s = true
  · simp only [h, if_true]
    intro v hv _
    rcases List.mem_cons.mp hv with rfl | hv'
    · rfl
    · exact absurd (no_visits_MdaoParameter_recalculate s v hv') (by simp_all)
  · simp [h]

theorem visits_dbLoop (ds : List String) (s : Store) :
    ∀ v ∈ (dbLoop ds s).evs, isVisit v = true → ∃ d, v = Ev.visitDb d := by
  induction ds generalizing s with
  | nil => simp [dbLoop]
  | cons d rest ih =>
    unfold dbLoop
    apply andThen_forall
    · by_cases h : DatabaseParameter.expired s d = true
      · simp only [h, if_true]
        intro v hv _
        rcases List.mem_cons.mp hv with rfl | hv'
        · exact ⟨d, rfl⟩
        · exact absurd (no_visits_DatabaseParameter_recalculate s d v hv') (by simp_all)
      · simp [h]
    · intro t
      exact ih t

theorem visits_actLoop (dbs : List String) (gs : List String) (s : Store) :
    ∀ v ∈ (actLoop dbs gs s).evs, isVisit v = true → ∃ g, v = Ev.visitAct g := by
  induction gs generalizing s with
  | nil => simp [actLoop]
  | cons g rest ih =>
    unfold actLoop
    apply andThen_forall
    · by_cases h : (g ∈ dbs || g = "project") = true
      · simp [h]
      · simp only [h, Bool.false_eq_true, if_false]
        intro v hv hvis
        rcases List.mem_cons.mp hv with rfl | hv'
        · exact ⟨g, rfl⟩
        · have hfalse := andThen_forall (P := fun v => isVisit v = false)
            (ActivityParameter.recalculate s g)
            (fun st => ActivityParameter.recalculate_exchanges st g)
            (no_visits_ActivityParameter_recalculate s g)
            (fun t => no_visits_ActivityParameter_recalculate_exchanges t g) v hv'
          simp_all
    · intro t
      exact ih t

theorem pairwise_rank_cat (l1 l2 : List Ev) (k : Nat)
    (h1 : (visitsOf l1).Pairwise (fun a b => codeRank a ≤ codeRank b))
    (h2 : (visitsOf l2).Pairwise (fun a b => codeRank a ≤ codeRank b))
    (hb1 : ∀ v ∈ l1, isVisit v = true → codeRank v ≤ k)
    (hb2 : ∀ v ∈ l2, isVisit v = true → k ≤ codeRank v) :
    (visitsOf (l1 ++ l2)).Pairwise (fun a b => codeRank a ≤ codeRank b) := by
  unfold visitsOf
  rw [List.filter_append]
  refine List.pairwise_append.mpr ⟨h1, h2, ?_⟩
  intro a ha b hb
  have ha' := List.mem_filter.mp ha
  have hb' := List.mem_filter.mp hb
  exact le_trans (hb1 a ha'.1 ha'.2) (hb2 b hb'.1 hb'.2)

theorem pairwise_rank_const (l : List Ev) (k : Nat)
    (h : ∀ v ∈ l, isVisit v = true → codeRank v = k) :
    (visitsOf l).Pairwise (fun a b => codeRank a ≤ codeRank b) := by
  apply List.pairwise_of_forall_mem_list
  intro a ha b hb
  have ha' := List.mem_filter.mp ha
  have hb' := List.mem_filter.mp hb
  rw [h a ha'.1 ha'.2, h b hb'.1 hb'.2]

theorem pairwise_visits_andThen (r : Res) (f : Store → Res) (k : Nat)
    (hp : (visitsOf r.evs).Pairwise (fun a b => codeRank a ≤ codeRank b))
    (hb : ∀ v ∈ r.evs, isVisit v = true → codeRank v ≤ k)
    (hfp : ∀ t, (visitsOf (f t).evs).Pairwise (fun a b => codeRank a ≤ codeRank b))
    (hfb : ∀ t, ∀ v ∈ (f t).evs, isVisit v = true → k ≤ codeRank v) :
    (visitsOf (r.andThen f).evs).Pairwise (fun a b => codeRank a ≤ codeRank b) := by
  rcases andThen_evs r f with h | h <;> rw [h]
  · exact hp
  · exact pairwise_rank_cat _ _ k hp (hfp _) hb (hfb _)

theorem rank_lb_actLoop (dbs gs : List String) (s : Store) :
    ∀ v ∈ (actLoop dbs gs s).evs, isVisit v = true → 3 ≤ codeRank v := by
  intro v hv hvis
  rcases visits_actLoop dbs gs s v hv hvis with ⟨g, rfl⟩
  exact le_refl 3

theorem rank_lb_tail2 (t2 : Store) :
    ∀ v ∈ ((dbLoop t2.databases t2).andThen
      (fun t3 => actLoop t3.databases (staleGroups t3) t3)).evs,
      isVisit v = true → 2 ≤ codeRank v := by
  apply andThen_forall (P := fun v => isVisit v = true → 2 ≤ codeRank v)
  · intro v hv hvis
    rcases visits_dbLoop _ _ v hv hvis with ⟨d, rfl⟩
    exact le_refl 2
  · intro t3 v hv hvis
    have := rank_lb_actLoop _ _ _ v hv hvis
    omega

theorem rank_lb_tail1 (t1 : Store) :
    ∀ v ∈ ((phaseMdao t1).andThen (fun t2 => (dbLoop t2.databases t2).andThen
      (fun t3 => actLoop t3.databases (staleGroups t3) t3))).evs,
      isVisit v = true → 1 ≤ codeRank v := by
  apply andThen_forall (P := fun v => isVisit v = true → 1 ≤ codeRank v)
  · intro v hv hvis
    rw [visits_phaseMdao t1 v hv hvis]
    exact le_refl 1
  · intro t2 v hv hvis
    have := rank_lb_tail2 t2 v hv hvis
    omega

/-- C1 amended: the orchestrator visits groups in the order Project
first, then the External-Input (mdao) group, then every Database group,
then every Activity group: along the visit trace the code's layer rank
(Project 0, mdao 1, Database 2, Activity 3) never decreases. -/
theorem C1_visit_order (s : Store) :
    (visitsOf (MdaoParameterManager.recalculate s).evs).Pairwise
      (fun a b => codeRank a ≤ codeRank b) := by
  unfold MdaoParameterManager.recalculate
  apply pairwise_visits_andThen _ _ 1
  · exact pairwise_rank_const _ 0 (fun v hv hvis => by rw [visits_phaseProject s v hv hvis]; rfl)
  · intro v hv hvis
    rw [visits_phaseProject s v hv hvis]
    exact Nat.zero_le 1
  · intro t1
    apply pairwise_visits_andThen _ _ 2
    · exact pairwise_rank_const _ 1 (fun v hv hvis => by rw [visits_phaseMdao t1 v hv hvis]; rfl)
    · intro v hv hvis
      rw [visits_phaseMdao t1 v hv hvis]
      norm_num [codeRank]
    · intro t2
      apply pairwise_visits_andThen _ _ 3
      · exact pairwise_rank_const _ 2 (fun v hv hvis => by
          rcases visits_dbLoop _ _ v hv hvis with ⟨d, rfl⟩
          rfl)
      · intro v hv hvis
        rcases visits_dbLoop _ _ v hv hvis with ⟨d, rfl⟩
        norm_num [codeRank]
      · intro t3
        exact pairwise_rank_const _ 3 (fun v hv hvis => by
          rcases visits_actLoop _ _ _ v hv hvis with ⟨g, rfl⟩
          rfl)
      · intro t3
        exact rank_lb_actLoop _ _ _
    · intro t2
      exact rank_lb_tail2 t2
  · intro t1
    exact rank_lb_tail1 t1

/-- One expired group of each layer kind: Project, mdao, the Database
`bio`, the Activity `act1`. -/
def c1Store : Store :=
  ⟨[⟨"m", none, 2, none⟩], [⟨"p", none, 1, none⟩], [("bio", ⟨"d", none, 3, none⟩)],
   [⟨"act1", "bio", "a", none, 4⟩], [], [],
   [("project", false), ("lca4mdao", false), ("bio", false), ("act1", false)],
   [], ["bio"], []⟩

/-- C1 counterexample: with all four layers expired, the orchestrator's
visit trace is Project, mdao, Database, Activity: the External-Input
(mdao) group is visited second, before the Database and Activity groups,
not after them as claimed (the claimed rank order Project 0, Database 1,
Activity 2, mdao 3 is violated along the trace). -/
theorem C1_counterexample :
    visitsOf (MdaoParameterManager.recalculate c1Store).evs =
      [Ev.visitProject, Ev.visitMdao, Ev.visitDb "bio", Ev.visitAct "act1"] ∧
    ¬ (visitsOf (MdaoParameterManager.recalculate c1Store).evs).Pairwise
        (fun a b => specRank a ≤ specRank b) := by
  have he : visitsOf (MdaoParameterManager.recalculate c1Store).evs =
      [Ev.visitProject, Ev.visitMdao, Ev.visitDb "bio", Ev.visitAct "act1"] := by rfl
  refine ⟨he, ?_⟩
  rw [he]
  decide

/-! ## C9: expiry placement -/

/-- The claim's ordering property: every parameter-amount write in the
trace is preceded by an expiry of group `g`. -/
def expiresBeforeWrites (g : String) (evs : List Ev) : Prop :=
  ∀ i : Fin evs.length, isParamWrite (evs.get i) = true →
    ∃ j : Fin evs.length, j < i ∧ evs.get j = Ev.expireEv g

/-- One mdao parameter wired to the optimizer input `x`; the group is
currently fresh. -/
def c9Store : Store :=
  ⟨[⟨"x", none, 0, some "x"⟩], [], [], [], [], [], [("lca4mdao", true)], [], [], []⟩

/-- C9 counterexample: the external-input push (`compute`) persists the
new amount first — the trace begins with the `writeParam` event, and no
expiry of the owning group precedes it; the group is expired only after
the batch commits. -/
theorem C9_counterexample :
    (LcaCalculationComponent.compute c9Store [("x", 3)]).evs =
      [Ev.writeParam "x", Ev.expireEv "lca4mdao", Ev.writeParam "x"] ∧
    ¬ expiresBeforeWrites "lca4mdao"
        (LcaCalculationComponent.compute c9Store [("x", 3)]).evs := by
  have he : (LcaCalculationComponent.compute c9Store [("x", 3)]).evs =
      [Ev.writeParam "x", Ev.expireEv "lca4mdao", Ev.writeParam "x"] := by rfl
  refine ⟨he, ?_⟩
  rw [he]
  unfold expiresBeforeWrites
  decide

/-- C9 amended: `MdaoParameter.save` does expire `'lca4mdao'` before
persisting the row, but the external-input push path persists its batch
of amount writes first and expires the group only afterwards — though
still before exchange recomputation begins and before control returns. -/
theorem C9_expiry_placement (s : Store) (p : MParam) (inputs : List (String × Rat))
    (updates : List (String × Rat))
    (hup : (s.mdaoParams.mapM (fun q =>
      match q.mdaoName with
      | some mn => (lookupTbl inputs mn).map (fun v => (q.name, v))
      | none => none) : Option (List (String × Rat))) = some updates) :
    (MdaoParameter.save s p).evs = [Ev.expireEv "lca4mdao", Ev.persistEv p.name] ∧
    (∃ rest, (LcaCalculationComponent.compute s inputs).evs =
      s.mdaoParams.map (fun q => Ev.writeParam q.name) ++ Ev.expireEv "lca4mdao" :: rest) := by
  refine ⟨rfl, ?_⟩
  unfold LcaCalculationComponent.compute
  rw [hup]
  simp only [Res.andThen]
  exact ⟨(MdaoParameter.recalculate_exchanges
      (expireGroup { s with mdaoParams := applyAmounts updates s.mdaoParams } "lca4mdao")).evs,
    by rw [List.append_assoc]; rfl⟩

theorem C9_witness :
    (MdaoParameter.save c9Store ⟨"y", none, 0, none⟩).evs =
      [Ev.expireEv "lca4mdao", Ev.persistEv "y"] ∧
    (∃ rest, (LcaCalculationComponent.compute c9Store [("x", 3)]).evs =
      c9Store.mdaoParams.map (fun q => Ev.writeParam q.name) ++
        Ev.expireEv "lca4mdao" :: rest) :=
  C9_expiry_placement c9Store ⟨"y", none, 0, none⟩ [("x", 3)] [("x", 3)] rfl

/-! ## C5: rename -/

/-- Names and formulas of the mdao rows (what a rewrite could change). -/
def mdaoShape (ps : List MParam) : List (String × Option String) :=
  ps.map (fun p => (p.name, p.formula))

theorem mdaoShape_applyAmounts (amounts : List (String × Rat)) (ps : List MParam) :
    mdaoShape (applyAmounts amounts ps) = mdaoShape ps := by
  induction ps with
  | nil => rfl
  | cons p t ih =>
    simp only [applyAmounts, mdaoShape, List.map_cons] at *
    cases lookupTbl amounts p.name <;> simp_all

theorem andThen_st_abs {α : Type} (r : Res) (f : Store → Res) (A : Store → α) (a : α)
    (h1 : A r.st = a) (h2 : ∀ t, A (f t).st = A t) :
    A (r.andThen f).st = a := by
  unfold Res.andThen
  cases r.err with
  | none => simpa [h2 r.st] using h1
  | some e => simpa using h1

theorem expireDownstream_mdaoParams (s : Store) (g : String) :
    (expireDownstream s g).mdaoParams = s.mdaoParams := rfl

theorem mdaoShape_MdaoParameter_recalculate (s : Store) :
    mdaoShape (MdaoParameter.recalculate s).st.mdaoParams = mdaoShape s.mdaoParams := by
  unfold MdaoParameter.recalculate
  by_cases h1 : MdaoParameter.expired s
  · by_cases h2 : s.mdaoParams.isEmpty
    · simp [h1, h2]
    · cases h3 : evaluateParameterSet [] s.mdaoParams with
      | error e => simp [h1, h2, h3]
      | ok amounts =>
        simp only [h1, h2, h3, Bool.not_true, Bool.false_eq_true, if_false]
        rw [expireDownstream_mdaoParams, freshenGroup_mdaoParams]
        exact mdaoShape_applyAmounts amounts s.mdaoParams
  · simp [h1]

theorem mdaoParams_ProjectParameter_recalculate (s : Store) :
    (ProjectParameter.recalculate s).st.mdaoParams = s.mdaoParams := by
  unfold ProjectParameter.recalculate
  cases evaluateParameterSet [] s.projectParams with
  | error e => rfl
  | ok amounts => exact freshenGroup_mdaoParams _ _

theorem mdaoParams_DatabaseParameter_recalculate (s : Store) (db : String) :
    (DatabaseParameter.recalculate s db).st.mdaoParams = s.mdaoParams := by
  unfold DatabaseParameter.recalculate
  cases evaluateParameterSet (ProjectParameter.static s) (dbParamsOf s db) with
  | error e => rfl
  | ok amounts => exact freshenGroup_mdaoParams _ _

theorem mdaoParams_ActivityParameter_recalculate (s : Store) (g : String) :
    (ActivityParameter.recalculate s g).st.mdaoParams = s.mdaoParams := by
  unfold ActivityParameter.recalculate
  by_cases h1 : lookupGroup s g = some true
  · simp [h1]
  · cases h2 : evaluateParameterSet (activityGlobals s g) ((actParamsOf s g).map actToM) with
    | error e => simp [h1, h2]
    | ok amounts =>
      simp only [h1, h2, if_false]
      exact freshenGroup_mdaoParams _ _

theorem setDirty_mdaoParams (s : Store) (db : String) :
    (setDirty s db).mdaoParams = s.mdaoParams := by
  simp only [setDirty]
  split <;> rfl

theorem mdaoParams_recalcLoop (tbl : List (String × Rat)) (l : List PExchange) (s : Store) :
    (recalcExchangesLoop tbl l s).st.mdaoParams = s.mdaoParams := by
  induction l generalizing s with
  | nil => rfl
  | cons q rest ih =>
    unfold recalcExchangesLoop
    cases s.exchangeData.find? (fun e => e.id = q.exchange) with
    | none => rfl
    | some exc =>
      refine andThen_st_abs _ _ (fun t => t.mdaoParams) _ ?_ (fun t => ih t)
      dsimp only
      rw [setDirty_mdaoParams]

theorem mdaoShape_phaseProject (s : Store) :
    mdaoShape (phaseProject s).st.mdaoParams = mdaoShape s.mdaoParams := by
  unfold phaseProject
  by_cases h : ProjectParameter.expired s = true
  · simp only [h, if_true]
    rw [mdaoParams_ProjectParameter_recalculate]
  · simp [h]

theorem mdaoShape_phaseMdao (s : Store) :
    mdaoShape (phaseMdao s).st.mdaoParams = mdaoShape s.mdaoParams := by
  unfold phaseMdao
  by_cases h : MdaoParameter.expired s = true
  · simp only [h, if_true]
    exact mdaoShape_MdaoParameter_recalculate s
  · simp [h]

theorem mdaoShape_dbLoop (ds : List String) (s : Store) :
    mdaoShape (dbLoop ds s).st.mdaoParams = mdaoShape s.mdaoParams := by
  induction ds generalizing s with
  | nil => rfl
  | cons d rest ih =>
    unfold dbLoop
    refine andThen_st_abs _ _ (fun t => mdaoShape t.mdaoParams) _ ?_ (fun t => ih t)
    by_cases h : DatabaseParameter.expired s d = true
    · simp only [h, if_true]
      rw [mdaoParams_DatabaseParameter_recalculate]
    · simp [h]

theorem mdaoShape_actLoop (dbs gs : List String) (s : Store) :
    mdaoShape (actLoop dbs gs s).st.mdaoParams = mdaoShape s.mdaoParams := by
  induction gs generalizing s with
  | nil => rfl
  | cons g rest ih =>
    unfold actLoop
    refine andThen_st_abs _ _ (fun t => mdaoShape t.mdaoParams) _ ?_ (fun t => ih t)
    by_cases h : (g ∈ dbs || g = "project") = true
    · simp [h]
    · simp only [h, Bool.false_eq_true, if_false]
      refine andThen_st_abs _ _ (fun t => mdaoShape t.mdaoParams) _ ?_ ?_
      · dsimp only
        rw [mdaoParams_ActivityParameter_recalculate]
      · intro t
        unfold ActivityParameter.recalculate_exchanges
        dsimp only
        rw [mdaoParams_recalcLoop]

theorem mdaoShape_manager (s : Store) :
    mdaoShape (MdaoParameterManager.recalculate s).st.mdaoParams = mdaoShape s.mdaoParams := by
  unfold MdaoParameterManager.recalculate
  refine andThen_st_abs _ _ (fun t => mdaoShape t.mdaoParams) _ (mdaoShape_phaseProject s) ?_
  intro t1
  refine andThen_st_abs _ _ (fun t => mdaoShape t.mdaoParams) _ (mdaoShape_phaseMdao t1) ?_
  intro t2
  refine andThen_st_abs _ _ (fun t => mdaoShape t.mdaoParams) _ (mdaoShape_dbLoop _ t2) ?_
  intro t3
  exact mdaoShape_actLoop _ _ t3

theorem foldl_expireGroup_mdaoParams (l : List String) (s : Store) :
    (l.foldl expireGroup s).mdaoParams = s.mdaoParams := by
  induction l generalizing s with
  | nil => rfl
  | cons g rest ih =>
    simp only [List.foldl_cons]
    rw [ih, expireGroup_mdaoParams]

theorem mdaoParams_proj_rewrite (s : Store) (old new : String) :
    (ProjectParameter.update_formula_parameter_name s old new).mdaoParams = s.mdaoParams :=
  expireGroup_mdaoParams _ _

theorem mdaoParams_db_rewrite (s : Store) (old new : String) :
    (DatabaseParameter.update_formula_project_parameter_name s old new).mdaoParams
      = s.mdaoParams :=
  foldl_expireGroup_mdaoParams _ _

theorem mdaoParams_act_rewrite (s : Store) (old new : String) :
    (ActivityParameter.update_formula_project_parameter_name s old new).mdaoParams
      = s.mdaoParams :=
  foldl_expireGroup_mdaoParams _ _

theorem mdaoShape_renameRow (s : Store) (old new : String) :
    mdaoShape (renameRow s old new).st.mdaoParams =
      s.mdaoParams.map (fun p => ((if p.name = old then new else p.name), p.formula)) := by
  unfold renameRow
  show mdaoShape ((expireGroup s "lca4mdao").mdaoParams.map _) = _
  rw [show (expireGroup s "lca4mdao").mdaoParams = s.mdaoParams from setGroup_mdaoParams _ _ _]
  unfold mdaoShape
  rw [List.map_map]
  apply List.map_congr_left
  intro p _
  by_cases h : p.name = old <;> simp [h]

theorem mdaoParams_cascadeRewrites (s : Store) (old new : String) (b1 b2 b3 : Bool) :
    (cascadeRewrites s old new b1 b2 b3).mdaoParams = s.mdaoParams := by
  unfold cascadeRewrites
  cases b1 <;> cases b2 <;> cases b3 <;>
    simp [mdaoParams_proj_rewrite, mdaoParams_db_rewrite, mdaoParams_act_rewrite]

/-- Two mdao parameters: `x`, and `a` whose formula references `x` inside
the mdao group itself; no other layer has parameters. -/
def c5Store : Store :=
  ⟨[⟨"x", none, 2, none⟩, ⟨"a", some "x*2", 0, none⟩], [], [], [], [], [],
   [("lca4mdao", true)], [], [], []⟩

/-- C5 counterexample: `a`'s formula (in the mdao group itself) references
`x`, yet renaming `x` to `y` with cascade enabled never rewrites
mdao-group formulas; the recalculation triggered inside the transaction
therefore fails with the missing name `x` and the whole transaction
rolls back, leaving the store unchanged — instead of succeeding with
`a`'s formula rewritten as the claim asserts. -/
theorem C5_counterexample :
    (MdaoParameterManager.rename_mdao_parameter c5Store "x" "y" true).err =
      some (.missingName ["x"]) ∧
    (MdaoParameterManager.rename_mdao_parameter c5Store "x" "y" true).st = c5Store := by
  exact ⟨rfl, rfl⟩

/-- C5 amended: when the parameter's name is referenced elsewhere (any of
the code's four dependency flags) and cascade is disabled, rename raises
and changes nothing.  With cascade enabled, only project, database and
activity formulas are rewritten: the names and formulas of the mdao rows
in the result (when the rename returns without error) are exactly the
original ones with only the renamed parameter's name replaced — no
mdao-group formula is ever rewritten.  (When an mdao formula references
the old name, the triggered recalculation fails and the whole transaction
rolls back, as the counterexample shows.) -/
theorem C5_rename_behavior (s : Store) (old new : String) (chain : List String)
    (hne : old ≠ new)
    (hchain : MdaoParameter.dependency_chain s = .ok chain)
    (hdep : old ∈ chain ∨ ProjectParameter.is_dependency_within_group s old = true ∨
      DatabaseParameter.is_dependent_on s old = true ∨
      ActivityParameter.is_dependent_on s old "project" = true) :
    MdaoParameterManager.rename_mdao_parameter s old new false = ⟨s, [], some .valueError⟩ ∧
    ((MdaoParameterManager.rename_mdao_parameter s old new true).err = none →
      mdaoShape (MdaoParameterManager.rename_mdao_parameter s old new true).st.mdaoParams =
        s.mdaoParams.map (fun p => ((if p.name = old then new else p.name), p.formula))) := by
  have hdep_chain : MdaoParameter.is_dependency_within_group s old
      = .ok (decide (old ∈ chain)) := by
    simp [MdaoParameter.is_dependency_within_group, hchain]
  have hcond : (decide (old ∈ chain) || ProjectParameter.is_dependency_within_group s old ||
      DatabaseParameter.is_dependent_on s old ||
      ActivityParameter.is_dependent_on s old "project") = true := by
    rcases hdep with h | h | h | h <;> simp [h]
  constructor
  · unfold MdaoParameterManager.rename_mdao_parameter
    rw [if_neg hne, hdep_chain]
    simp only [Bool.not_false, Bool.true_and, hcond, if_true]
  · intro herr
    unfold MdaoParameterManager.rename_mdao_parameter at herr ⊢
    rw [if_neg hne, hdep_chain] at herr ⊢
    simp only [Bool.not_true, Bool.false_and, Bool.false_eq_true, if_false] at herr ⊢
    cases hr : (Res.andThen
        (renameRow (cascadeRewrites s old new
          (ProjectParameter.is_dependency_within_group s old)
          (DatabaseParameter.is_dependent_on s old)
          (ActivityParameter.is_dependent_on s old "project")) old new)
        MdaoParameterManager.recalculate).err with
    | some e =>
      rw [hr] at herr
      simp at herr
    | none =>
      dsimp only
      refine andThen_st_abs _ _ (fun t => mdaoShape t.mdaoParams) _ ?_ mdaoShape_manager
      show mdaoShape (renameRow (cascadeRewrites s old new
          (ProjectParameter.is_dependency_within_group s old)
          (DatabaseParameter.is_dependent_on s old)
          (ActivityParameter.is_dependent_on s old "project")) old new).st.mdaoParams = _
      rw [mdaoShape_renameRow, mdaoParams_cascadeRewrites]

theorem C5_witness :
    (MdaoParameterManager.rename_mdao_parameter c5Store "x" "y" false =
      ⟨c5Store, [], some .valueError⟩) ∧
    ((MdaoParameterManager.rename_mdao_parameter c5Store "x" "y" true).err = none →
      mdaoShape (MdaoParameterManager.rename_mdao_parameter c5Store "x" "y" true).st.mdaoParams =
        c5Store.mdaoParams.map (fun p => ((if p.name = "x" then "y" else p.name), p.formula))) :=
  C5_rename_behavior c5Store "x" "y" ["x"] (by decide) rfl (Or.inl (by decide))

/-! ## C3: idempotence -/

/-- Every row named `g` is fresh. -/
def rowsTrue (t : Store) (g : String) : Prop :=
  ∀ gf ∈ t.groups, gf.1 = g → gf.2 = true

theorem lookupGroup_allFresh (t : Store) (h : allFresh t = true) (g : String) :
    lookupGroup t g = none ∨ lookupGroup t g = some true := by
  unfold lookupGroup
  cases hf : t.groups.find? (fun gf => gf.1 = g) with
  | none => exact Or.inl rfl
  | some gf =>
    right
    have hmem := List.mem_of_find?_eq_some hf
    have hb : gf.2 = true := by simpa using List.all_eq_true.mp h gf hmem
    show some gf.2 = some true
    rw [hb]

theorem expired_flag_allFresh (t : Store) (h : allFresh t = true) (g : String) :
    (match lookupGroup t g with
      | some fresh => !fresh
      | none => false) = false := by
  rcases lookupGroup_allFresh t h g with hl | hl
  · rw [hl]
  · rw [hl]
    rfl

theorem dbLoop_skip (ds : List String) (t : Store)
    (h : ∀ db, DatabaseParameter.expired t db = false) :
    dbLoop ds t = ⟨t, [], none⟩ := by
  induction ds with
  | nil => rfl
  | cons d rest ih => simp [dbLoop, h d, Res.andThen, ih]

theorem staleGroups_nil (t : Store) (h : allFresh t = true) : staleGroups t = [] := by
  unfold staleGroups
  have hf : t.groups.filter (fun gf => gf.2 = false) = [] := by
    rw [List.filter_eq_nil_iff]
    intro gf hmem
    have := List.all_eq_true.mp h gf hmem
    simp_all
  rw [hf]
  rfl

/-- A store whose groups are all fresh is a fixed point of the
orchestrator: the second of two back-to-back full recalculations changes
nothing, emits no events — in particular performs zero parameter-amount
writes — and raises nothing. -/
theorem andThen_pure (t : Store) (f : Store → Res) :
    Res.andThen ⟨t, [], none⟩ f = f t := by
  unfold Res.andThen
  simp

theorem manager_fixed_point (t : Store) (h : allFresh t = true) :
    MdaoParameterManager.recalculate t = ⟨t, [], none⟩ := by
  have hproj : ProjectParameter.expired t = false := expired_flag_allFresh t h "project"
  have hmdao : MdaoParameter.expired t = false := expired_flag_allFresh t h "lca4mdao"
  have hdb : ∀ db, DatabaseParameter.expired t db = false :=
    fun db => expired_flag_allFresh t h db
  have h1 : phaseProject t = ⟨t, [], none⟩ := by simp [phaseProject, hproj]
  have h2 : phaseMdao t = ⟨t, [], none⟩ := by simp [phaseMdao, hmdao]
  unfold MdaoParameterManager.recalculate
  rw [h1, andThen_pure, h2, andThen_pure, dbLoop_skip t.databases t hdb, andThen_pure,
    staleGroups_nil t h]
  rfl

theorem andThen_err_none (r : Res) (f : Store → Res) (h : (r.andThen f).err = none) :
    r.err = none ∧ (f r.st).err = none := by
  cases hr : r.err with
  | some e =>
    unfold Res.andThen at h
    rw [hr] at h
    dsimp only at h
    rw [hr] at h
    exact absurd h (by simp)
  | none =>
    unfold Res.andThen at h
    rw [hr] at h
    exact ⟨rfl, h⟩

theorem andThen_st_of_ok (r : Res) (f : Store → Res) (h : r.err = none) :
    (r.andThen f).st = (f r.st).st := by
  simp [Res.andThen, h]

/-- The store-level side conditions preserved by every recompute step that
only freshens groups: dependency edges and the database registry are
untouched, group-name uniqueness survives, and fresh rows stay fresh. -/
def onlyFreshens (t u : Store) : Prop :=
  u.groupDeps = t.groupDeps ∧ u.databases = t.databases ∧
  ((t.groups.map (fun gf => gf.1)).Nodup → (u.groups.map (fun gf => gf.1)).Nodup) ∧
  (∀ n, rowsTrue t n → rowsTrue u n)

theorem onlyFreshens_refl (t : Store) : onlyFreshens t t :=
  ⟨rfl, rfl, id, fun _ h => h⟩

theorem onlyFreshens_trans {a b c : Store} (h1 : onlyFreshens a b) (h2 : onlyFreshens b c) :
    onlyFreshens a c :=
  ⟨h2.1.trans h1.1, h2.2.1.trans h1.2.1, fun hn => h2.2.2.1 (h1.2.2.1 hn),
   fun n hr => h2.2.2.2 n (h1.2.2.2 n hr)⟩

theorem rowsTrue_setGroup_true (t : Store) (g n : String) (h : rowsTrue t n) :
    rowsTrue (setGroup t g true) n := by
  unfold setGroup rowsTrue
  by_cases hc : t.groups.any (fun gf => gf.1 = g) = true
  · simp only [hc, if_true]
    intro gf hmem hname
    rcases List.mem_map.mp hmem with ⟨gf0, hgf0, rfl⟩
    by_cases hx : gf0.1 = g
    · simp [hx]
    · simp only [hx, if_false] at hname ⊢
      exact h gf0 hgf0 hname
  · simp only [hc, Bool.false_eq_true, if_false]
    intro gf hmem hname
    rcases List.mem_append.mp hmem with hm | hm
    · exact h gf hm hname
    · simp only [List.mem_singleton] at hm
      subst hm
      rfl

theorem rowsTrue_setGroup_self (t : Store) (g : String) :
    rowsTrue (setGroup t g true) g := by
  unfold setGroup rowsTrue
  by_cases hc : t.groups.any (fun gf => gf.1 = g) = true
  · simp only [hc, if_true]
    intro gf hmem hname
    rcases List.mem_map.mp hmem with ⟨gf0, hgf0, rfl⟩
    by_cases hx : gf0.1 = g
    · simp [hx]
    · simp only [hx, if_false] at hname ⊢
  · simp only [hc, Bool.false_eq_true, if_false]
    intro gf hmem hname
    rcases List.mem_append.mp hmem with hm | hm
    · exfalso
      have : t.groups.any (fun gf => gf.1 = g) = true :=
        List.any_eq_true.mpr ⟨gf, hm, by simp [hname]⟩
      exact hc this
    · simp only [List.mem_singleton] at hm
      subst hm
      rfl

theorem rowsTrue_expireDownstream (t : Store) (g n : String) (h : rowsTrue t n)
    (hnd : ∀ d ∈ t.groupDeps, ¬(d.1 = n ∧ d.2 = g)) :
    rowsTrue (expireDownstream t g) n := by
  unfold expireDownstream rowsTrue
  intro gf hmem hname
  rcases List.mem_map.mp hmem with ⟨gf0, hgf0, rfl⟩
  by_cases hx : t.groupDeps.any (fun d => d.1 = gf0.1 && d.2 = g) = true
  · exfalso
    rcases List.any_eq_true.mp hx with ⟨d, hd, hdp⟩
    simp only [Bool.and_eq_true, decide_eq_true_eq] at hdp
    simp only [hx, if_true] at hname
    exact hnd d hd ⟨hdp.1.trans hname, hdp.2⟩
  · simp only [hx, Bool.false_eq_true, if_false] at hname ⊢
    exact h gf0 hgf0 hname

theorem names_setGroup (t : Store) (g : String) (b : Bool) :
    (setGroup t g b).groups.map (fun gf => gf.1) = t.groups.map (fun gf => gf.1) ∨
    ((setGroup t g b).groups.map (fun gf => gf.1) = t.groups.map (fun gf => gf.1) ++ [g] ∧
      t.groups.any (fun gf => gf.1 = g) = false) := by
  unfold setGroup
  by_cases hc : t.groups.any (fun gf => gf.1 = g) = true
  · left
    simp only [hc, if_true]
    rw [List.map_map]
    apply List.map_congr_left
    intro gf _
    by_cases hx : gf.1 = g <;> simp [hx]
  · right
    have hc' : t.groups.any (fun gf => gf.1 = g) = false := by
      cases hx : t.groups.any (fun gf => gf.1 = g)
      · rfl
      · exact absurd hx hc
    refine ⟨?_, hc'⟩
    simp only [hc', Bool.false_eq_true, if_false]
    rw [List.map_append]
    rfl

theorem nodup_names_setGroup (t : Store) (g : String) (b : Bool)
    (h : (t.groups.map (fun gf => gf.1)).Nodup) :
    ((setGroup t g b).groups.map (fun gf => gf.1)).Nodup := by
  rcases names_setGroup t g b with hn | ⟨hn, hc⟩
  · rw [hn]; exact h
  · rw [hn]
    refine List.Nodup.append h (by simp) ?_
    intro a ha hb
    simp only [List.mem_singleton] at hb
    subst hb
    rcases List.mem_map.mp ha with ⟨gf, hgf, hname⟩
    have : t.groups.any (fun gf => gf.1 = a) = true :=
      List.any_eq_true.mpr ⟨gf, hgf, by simp [hname]⟩
    rw [this] at hc
    cases hc

theorem names_expireDownstream (t : Store) (g : String) :
    (expireDownstream t g).groups.map (fun gf => gf.1) = t.groups.map (fun gf => gf.1) := by
  unfold expireDownstream
  dsimp only
  rw [List.map_map]
  apply List.map_congr_left
  intro gf _
  show (if t.groupDeps.any (fun d => d.1 = gf.1 && d.2 = g) = true then (gf.1, false)
    else gf).1 = gf.1
  split <;> rfl

theorem setGroup_groups_any (t : Store) (g : String) (b : Bool) :
    (setGroup t g b).groupDeps = t.groupDeps ∧ (setGroup t g b).databases = t.databases :=
  ⟨setGroup_groupDeps t g b, setGroup_databases t g b⟩

/-- `freshenGroup` on any store whose group tables match `t`'s only
freshens. -/
theorem freshenGroup_groupDeps (s : Store) (g : String) :
    (freshenGroup s g).groupDeps = s.groupDeps :=
  setGroup_groupDeps s g true

theorem freshenGroup_databases (s : Store) (g : String) :
    (freshenGroup s g).databases = s.databases :=
  setGroup_databases s g true

theorem nodup_names_freshenGroup (t : Store) (g : String)
    (h : (t.groups.map (fun gf => gf.1)).Nodup) :
    ((freshenGroup t g).groups.map (fun gf => gf.1)).Nodup :=
  nodup_names_setGroup t g true h

theorem rowsTrue_freshenGroup (t : Store) (g n : String) (h : rowsTrue t n) :
    rowsTrue (freshenGroup t g) n :=
  rowsTrue_setGroup_true t g n h

theorem rowsTrue_freshenGroup_self (t : Store) (g : String) :
    rowsTrue (freshenGroup t g) g :=
  rowsTrue_setGroup_self t g

theorem onlyFreshens_freshen_upd (t X : Store) (g : String) (hg : X.groups = t.groups)
    (hd : X.groupDeps = t.groupDeps) (hb : X.databases = t.databases) :
    onlyFreshens t (freshenGroup X g) := by
  refine ⟨?_, ?_, ?_, ?_⟩
  · rw [freshenGroup_groupDeps, hd]
  · rw [freshenGroup_databases, hb]
  · intro hn
    apply nodup_names_freshenGroup
    rw [hg]
    exact hn
  · intro n hr
    have hrX : rowsTrue X n := by
      unfold rowsTrue
      rw [hg]
      exact hr
    exact rowsTrue_freshenGroup X g n hrX

theorem onlyFreshens_of_groups_eq (t u : Store) (hg : u.groups = t.groups)
    (hd : u.groupDeps = t.groupDeps) (hb : u.databases = t.databases) :
    onlyFreshens t u := by
  refine ⟨hd, hb, ?_, ?_⟩
  · intro hn
    rw [hg]
    exact hn
  · intro n hr
    unfold rowsTrue
    rw [hg]
    exact hr

theorem onlyFreshens_andThen (r : Res) (f : Store → Res) (t : Store)
    (h1 : onlyFreshens t r.st) (h2 : ∀ u, onlyFreshens u (f u).st) :
    onlyFreshens t (r.andThen f).st := by
  unfold Res.andThen
  cases r.err with
  | some e => exact h1
  | none => exact onlyFreshens_trans h1 (h2 r.st)

theorem onlyFreshens_ProjectParameter_recalculate (t : Store) :
    onlyFreshens t (ProjectParameter.recalculate t).st := by
  unfold ProjectParameter.recalculate
  cases evaluateParameterSet [] t.projectParams with
  | error e => exact onlyFreshens_refl t
  | ok amounts => exact onlyFreshens_freshen_upd t _ "project" rfl rfl rfl

theorem onlyFreshens_DatabaseParameter_recalculate (t : Store) (db : String) :
    onlyFreshens t (DatabaseParameter.recalculate t db).st := by
  unfold DatabaseParameter.recalculate
  cases evaluateParameterSet (ProjectParameter.static t) (dbParamsOf t db) with
  | error e => exact onlyFreshens_refl t
  | ok amounts => exact onlyFreshens_freshen_upd t _ db rfl rfl rfl

theorem onlyFreshens_ActivityParameter_recalculate (t : Store) (g : String) :
    onlyFreshens t (ActivityParameter.recalculate t g).st := by
  unfold ActivityParameter.recalculate
  by_cases h1 : lookupGroup t g = some true
  · simp only [h1, if_true]
    exact onlyFreshens_refl t
  · simp only [h1, if_false]
    cases evaluateParameterSet (activityGlobals t g) ((actParamsOf t g).map actToM) with
    | error e => exact onlyFreshens_refl t
    | ok amounts => exact onlyFreshens_freshen_upd t _ g rfl rfl rfl

theorem setDirty_groups (s : Store) (db : String) : (setDirty s db).groups = s.groups := by
  simp only [setDirty]
  split <;> rfl

theorem setDirty_groupDeps (s : Store) (db : String) :
    (setDirty s db).groupDeps = s.groupDeps := by
  simp only [setDirty]
  split <;> rfl

theorem setDirty_databases (s : Store) (db : String) :
    (setDirty s db).databases = s.databases := by
  simp only [setDirty]
  split <;> rfl

theorem onlyFreshens_recalcLoop (tbl : List (String × Rat)) (l : List PExchange) (s : Store) :
    onlyFreshens s (recalcExchangesLoop tbl l s).st := by
  induction l generalizing s with
  | nil => exact onlyFreshens_refl s
  | cons q rest ih =>
    unfold recalcExchangesLoop
    cases s.exchangeData.find? (fun e => e.id = q.exchange) with
    | none => exact onlyFreshens_refl s
    | some exc =>
      apply onlyFreshens_andThen _ _ _ _ (fun u => ih u)
      exact onlyFreshens_of_groups_eq s _ (setDirty_groups _ _) (setDirty_groupDeps _ _)
        (setDirty_databases _ _)

theorem onlyFreshens_actExchanges (t : Store) (g : String) :
    onlyFreshens t (ActivityParameter.recalculate_exchanges t g).st := by
  unfold ActivityParameter.recalculate_exchanges
  exact onlyFreshens_recalcLoop _ _ t

theorem onlyFreshens_phaseProject (s : Store) : onlyFreshens s (phaseProject s).st := by
  unfold phaseProject
  by_cases h : ProjectParameter.expired s = true
  · simp only [h, if_true]
    exact onlyFreshens_ProjectParameter_recalculate s
  · simp only [h, Bool.false_eq_true, if_false]
    exact onlyFreshens_refl s

theorem onlyFreshens_dbLoop (ds : List String) (t : Store) :
    onlyFreshens t (dbLoop ds t).st := by
  induction ds generalizing t with
  | nil => exact onlyFreshens_refl t
  | cons d rest ih =>
    unfold dbLoop
    apply onlyFreshens_andThen _ _ _ _ (fun u => ih u)
    by_cases h : DatabaseParameter.expired t d = true
    · simp only [h, if_true]
      exact onlyFreshens_DatabaseParameter_recalculate t d
    · simp only [h, Bool.false_eq_true, if_false]
      exact onlyFreshens_refl t

theorem onlyFreshens_actLoop (dbs gs : List String) (t : Store) :
    onlyFreshens t (actLoop dbs gs t).st := by
  induction gs generalizing t with
  | nil => exact onlyFreshens_refl t
  | cons g rest ih =>
    unfold actLoop
    apply onlyFreshens_andThen _ _ _ _ (fun u => ih u)
    by_cases h : (g ∈ dbs || g = "project") = true
    · simp only [h, if_true]
      exact onlyFreshens_refl t
    · simp only [h, Bool.false_eq_true, if_false]
      apply onlyFreshens_andThen _ _ _ (onlyFreshens_ActivityParameter_recalculate t g)
      intro u
      exact onlyFreshens_actExchanges u g

theorem expireDownstream_groupDeps (s : Store) (g : String) :
    (expireDownstream s g).groupDeps = s.groupDeps := rfl

theorem expireDownstream_databases (s : Store) (g : String) :
    (expireDownstream s g).databases = s.databases := rfl

theorem rows_true_of_find (l : List (String × Bool)) (g : String)
    (hnd : (l.map (fun gf => gf.1)).Nodup)
    (hl : (l.find? (fun gf => gf.1 = g)).map (fun gf => gf.2) ≠ some false) :
    ∀ gf ∈ l, gf.1 = g → gf.2 = true := by
  induction l with
  | nil =>
    intro gf hmem
    simp at hmem
  | cons hd tl ih =>
    rw [List.map_cons] at hnd
    have hnd2 := List.nodup_cons.mp hnd
    intro gf hmem hname
    rcases List.mem_cons.mp hmem with rfl | hmem'
    · rw [List.find?_cons_of_pos _ (by simp [hname])] at hl
      cases hb : gf.2
      · exfalso
        apply hl
        simp [hb]
      · rfl
    · by_cases hh : hd.1 = g
      · exfalso
        have hmem2 : g ∈ tl.map (fun gf => gf.1) := by
          rw [← hname]
          exact List.mem_map_of_mem _ hmem'
        rw [hh] at hnd2
        exact hnd2.1 hmem2
      · rw [List.find?_cons_of_neg _ (by simp [hh])] at hl
        exact ih hnd2.2 hl gf hmem' hname

theorem rowsTrue_of_flag_false (t : Store) (g : String)
    (hnd : (t.groups.map (fun gf => gf.1)).Nodup)
    (h : (match lookupGroup t g with
      | some fresh => !fresh
      | none => false) = false) :
    rowsTrue t g := by
  intro gf hmem hname
  refine rows_true_of_find t.groups g hnd ?_ gf hmem hname
  intro hbad
  unfold lookupGroup at h
  rw [hbad] at h
  simp at h

theorem rowsTrue_project_phase1 (s : Store)
    (hnd : (s.groups.map (fun gf => gf.1)).Nodup)
    (herr : (phaseProject s).err = none) :
    rowsTrue (phaseProject s).st "project" := by
  unfold phaseProject at herr ⊢
  by_cases h : ProjectParameter.expired s = true
  · simp only [h, if_true] at herr ⊢
    unfold ProjectParameter.recalculate at herr ⊢
    cases hev : evaluateParameterSet [] s.projectParams with
    | error e =>
      rw [hev] at herr
      simp at herr
    | ok amounts =>
      dsimp only
      exact rowsTrue_freshenGroup_self _ "project"
  · simp only [h, Bool.false_eq_true, if_false] at herr ⊢
    have hfl : ProjectParameter.expired s = false := by
      cases hx : ProjectParameter.expired s
      · rfl
      · exact absurd hx h
    exact rowsTrue_of_flag_false s "project" hnd hfl

/-- The mdao phase touches group rows only by freshening `'lca4mdao'` and
expiring its dependents; under the side condition that `'project'` is not
recorded as depending on `'lca4mdao'`, it keeps the project rows fresh,
the dependency edges, the database registry and name-uniqueness. -/
theorem phaseMdao_meta (t : Store)
    (hdeps : ∀ d ∈ t.groupDeps, ¬(d.1 = "project" ∧ d.2 = "lca4mdao")) :
    (phaseMdao t).st.groupDeps = t.groupDeps ∧
    (phaseMdao t).st.databases = t.databases ∧
    ((t.groups.map (fun gf => gf.1)).Nodup →
      ((phaseMdao t).st.groups.map (fun gf => gf.1)).Nodup) ∧
    (rowsTrue t "project" → rowsTrue (phaseMdao t).st "project") := by
  unfold phaseMdao
  by_cases h : MdaoParameter.expired t = true
  · simp only [h, if_true]
    unfold MdaoParameter.recalculate
    by_cases h2 : t.mdaoParams.isEmpty
    · simp only [h, h2, Bool.not_true, Bool.false_eq_true, if_false, if_true]
      exact ⟨by simp, by simp, id, fun hr => hr⟩
    · cases h3 : evaluateParameterSet [] t.mdaoParams with
      | error e =>
        simp only [h, h2, h3, Bool.not_true, Bool.false_eq_true, if_false]
        exact ⟨by simp, by simp, id, fun hr => hr⟩
      | ok amounts =>
        simp only [h, h2, h3, Bool.not_true, Bool.false_eq_true, if_false]
        refine ⟨?_, ?_, ?_, ?_⟩
        · rw [expireDownstream_groupDeps, freshenGroup_groupDeps]
        · rw [expireDownstream_databases, freshenGroup_databases]
        · intro hn
          rw [names_expireDownstream]
          exact nodup_names_freshenGroup _ _ hn
        · intro hr
          apply rowsTrue_expireDownstream
          · exact rowsTrue_freshenGroup _ _ _ hr
          · rw [freshenGroup_groupDeps]
            exact hdeps
  · simp only [h, Bool.false_eq_true, if_false]
    exact ⟨by simp, by simp, id, fun hr => hr⟩

/-- One iteration of the phase-3 loop. -/
def dbStep (t : Store) (d : String) : Res :=
  if DatabaseParameter.expired t d then
    let r := DatabaseParameter.recalculate t d
    ⟨r.st, Ev.visitDb d :: r.evs, r.err⟩
  else ⟨t, [], none⟩

theorem dbLoop_cons (d : String) (rest : List String) (t : Store) :
    dbLoop (d :: rest) t = Res.andThen (dbStep t d) (dbLoop rest) := rfl

/-- One iteration of the phase-4 loop. -/
def actStep (dbs : List String) (t : Store) (g : String) : Res :=
  if g ∈ dbs || g = "project" then ⟨t, [], none⟩
  else
    let r := Res.andThen (ActivityParameter.recalculate t g)
      (fun st => ActivityParameter.recalculate_exchanges st g)
    ⟨r.st, Ev.visitAct g :: r.evs, r.err⟩

theorem actLoop_cons (dbs : List String) (g : String) (rest : List String) (t : Store) :
    actLoop dbs (g :: rest) t = Res.andThen (actStep dbs t g) (actLoop dbs rest) := rfl

theorem dbStep_meta (t : Store) (d : String) : onlyFreshens t (dbStep t d).st := by
  unfold dbStep
  by_cases h : DatabaseParameter.expired t d = true
  · simp only [h, if_true]
    exact onlyFreshens_DatabaseParameter_recalculate t d
  · simp only [h, Bool.false_eq_true, if_false]
    exact onlyFreshens_refl t

theorem dbStep_rowsTrue (t : Store) (d : String)
    (hnd : (t.groups.map (fun gf => gf.1)).Nodup)
    (herr : (dbStep t d).err = none) :
    rowsTrue (dbStep t d).st d := by
  unfold dbStep at herr ⊢
  by_cases h : DatabaseParameter.expired t d = true
  · simp only [h, if_true] at herr ⊢
    unfold DatabaseParameter.recalculate at herr ⊢
    cases hev : evaluateParameterSet (ProjectParameter.static t) (dbParamsOf t d) with
    | error e =>
      rw [hev] at herr
      simp at herr
    | ok amounts =>
      dsimp only
      exact rowsTrue_freshenGroup_self _ d
  · simp only [h, Bool.false_eq_true, if_false] at herr ⊢
    have hfl : DatabaseParameter.expired t d = false := by
      cases hx : DatabaseParameter.expired t d
      · rfl
      · exact absurd hx h
    exact rowsTrue_of_flag_false t d hnd hfl

theorem dbLoop_rowsTrue (ds : List String) (t : Store)
    (hnd : (t.groups.map (fun gf => gf.1)).Nodup)
    (herr : (dbLoop ds t).err = none) :
    ∀ db ∈ ds, rowsTrue (dbLoop ds t).st db := by
  induction ds generalizing t with
  | nil =>
    intro db hdb
    simp at hdb
  | cons d rest ih =>
    rw [dbLoop_cons] at herr ⊢
    obtain ⟨he1, he2⟩ := andThen_err_none _ _ herr
    intro db hdb
    rw [andThen_st_of_ok _ _ he1]
    rcases List.mem_cons.mp hdb with rfl | hdb'
    · exact (onlyFreshens_dbLoop rest (dbStep t db).st).2.2.2 db (dbStep_rowsTrue t db hnd he1)
    · exact ih (dbStep t d).st ((dbStep_meta t d).2.2.1 hnd) he2 db hdb'

theorem false_rows_setGroup_true (X : Store) (g : String) :
    ∀ gf ∈ (setGroup X g true).groups, gf.2 = false → gf ∈ X.groups ∧ gf.1 ≠ g := by
  unfold setGroup
  by_cases hc : X.groups.any (fun gf => gf.1 = g) = true
  · simp only [hc, if_true]
    intro gf hmem hfalse
    rcases List.mem_map.mp hmem with ⟨gf0, hgf0, rfl⟩
    by_cases hx : gf0.1 = g
    · simp [hx] at hfalse
    · simp only [hx, if_false] at hfalse ⊢
      exact ⟨hgf0, hx⟩
  · simp only [hc, Bool.false_eq_true, if_false]
    intro gf hmem hfalse
    rcases List.mem_append.mp hmem with hm | hm
    · refine ⟨hm, ?_⟩
      intro hname
      exact hc (List.any_eq_true.mpr ⟨gf, hm, by simp [hname]⟩)
    · simp only [List.mem_singleton] at hm
      subst hm
      simp at hfalse

theorem false_rows_freshenGroup (X : Store) (g : String) :
    ∀ gf ∈ (freshenGroup X g).groups, gf.2 = false → gf ∈ X.groups ∧ gf.1 ≠ g :=
  false_rows_setGroup_true X g

theorem groups_recalcLoop (tbl : List (String × Rat)) (l : List PExchange) (s : Store) :
    (recalcExchangesLoop tbl l s).st.groups = s.groups := by
  induction l generalizing s with
  | nil => rfl
  | cons q rest ih =>
    unfold recalcExchangesLoop
    cases s.exchangeData.find? (fun e => e.id = q.exchange) with
    | none => rfl
    | some exc =>
      refine andThen_st_abs _ _ (fun u => u.groups) _ ?_ (fun u => ih u)
      dsimp only
      rw [setDirty_groups]

theorem groups_actExchanges (t : Store) (g : String) :
    (ActivityParameter.recalculate_exchanges t g).st.groups = t.groups := by
  unfold ActivityParameter.recalculate_exchanges
  exact groups_recalcLoop _ _ t

theorem actStep_meta (dbs : List String) (t : Store) (g : String) :
    onlyFreshens t (actStep dbs t g).st := by
  unfold actStep
  by_cases h : (g ∈ dbs || g = "project") = true
  · simp only [h, if_true]
    exact onlyFreshens_refl t
  · simp only [h, Bool.false_eq_true, if_false]
    apply onlyFreshens_andThen _ _ _ (onlyFreshens_ActivityParameter_recalculate t g)
    intro u
    exact onlyFreshens_actExchanges u g

theorem actStep_cover (dbs : List String) (t : Store) (g : String) (rest : List String)
    (hnd : (t.groups.map (fun gf => gf.1)).Nodup)
    (herr : (actStep dbs t g).err = none)
    (hcover : ∀ gf ∈ t.groups, gf.2 = false →
      gf.1 ∈ g :: rest ∧ gf.1 ∉ dbs ∧ gf.1 ≠ "project") :
    ∀ gf ∈ (actStep dbs t g).st.groups, gf.2 = false →
      gf.1 ∈ rest ∧ gf.1 ∉ dbs ∧ gf.1 ≠ "project" := by
  unfold actStep at herr ⊢
  by_cases h : (g ∈ dbs || g = "project") = true
  · simp only [h, if_true] at herr ⊢
    intro gf hmem hfalse
    obtain ⟨hin, hndb, hnp⟩ := hcover gf hmem hfalse
    refine ⟨?_, hndb, hnp⟩
    rcases List.mem_cons.mp hin with heq | hin'
    · exfalso
      have h' : g ∈ dbs ∨ g = "project" := by simpa using h
      rcases h' with hg | hg
      · exact hndb (heq ▸ hg)
      · exact hnp (heq.trans hg)
    · exact hin'
  · simp only [h, Bool.false_eq_true, if_false] at herr ⊢
    obtain ⟨he1, he2⟩ := andThen_err_none _ _ herr
    rw [andThen_st_of_ok _ _ he1, groups_actExchanges]
    unfold ActivityParameter.recalculate at he1 ⊢
    by_cases hx : lookupGroup t g = some true
    · simp only [hx, if_true] at he1 ⊢
      intro gf hmem hfalse
      obtain ⟨hin, hndb, hnp⟩ := hcover gf hmem hfalse
      refine ⟨?_, hndb, hnp⟩
      rcases List.mem_cons.mp hin with heq | hin'
      · exfalso
        have hrt : rowsTrue t g := by
          apply rows_true_of_find t.groups g hnd
          intro hbad
          rw [show (t.groups.find? (fun gf => gf.1 = g)).map (fun gf => gf.2)
            = lookupGroup t g from rfl, hx] at hbad
          simp at hbad
        exact absurd (hrt gf hmem heq) (by simp [hfalse])
      · exact hin'
    · simp only [hx, if_false] at he1 ⊢
      cases hev : evaluateParameterSet (activityGlobals t g) ((actParamsOf t g).map actToM) with
      | error e =>
        rw [hev] at he1
        simp at he1
      | ok amounts =>
        dsimp only
        intro gf hmem hfalse
        obtain ⟨hmem0, hne⟩ := false_rows_freshenGroup _ g gf hmem hfalse
        obtain ⟨hin, hndb, hnp⟩ := hcover gf hmem0 hfalse
        refine ⟨?_, hndb, hnp⟩
        rcases List.mem_cons.mp hin with heq | hin'
        · exact absurd heq hne
        · exact hin'

theorem actLoop_all_fresh (dbs gs : List String) (t : Store)
    (hnd : (t.groups.map (fun gf => gf.1)).Nodup)
    (herr : (actLoop dbs gs t).err = none)
    (hcover : ∀ gf ∈ t.groups, gf.2 = false →
      gf.1 ∈ gs ∧ gf.1 ∉ dbs ∧ gf.1 ≠ "project") :
    allFresh (actLoop dbs gs t).st = true := by
  induction gs generalizing t with
  | nil =>
    rw [show actLoop dbs [] t = ⟨t, [], none⟩ from rfl]
    apply List.all_eq_true.mpr
    intro gf hmem
    cases hb : gf.2
    · exact absurd (hcover gf hmem hb).1 (List.not_mem_nil _)
    · simp [hb]
  | cons g rest ih =>
    rw [actLoop_cons] at herr ⊢
    obtain ⟨he1, he2⟩ := andThen_err_none _ _ herr
    rw [andThen_st_of_ok _ _ he1]
    exact ih (actStep dbs t g).st ((actStep_meta dbs t g).2.2.1 hnd) he2
      (actStep_cover dbs t g rest hnd he1 hcover)

theorem mem_staleGroups (t : Store) (gf : String × Bool) (hmem : gf ∈ t.groups)
    (hfalse : gf.2 = false) : gf.1 ∈ staleGroups t := by
  unfold staleGroups
  exact List.mem_map_of_mem _ (List.mem_filter.mpr ⟨hmem, by simp [hfalse]⟩)

/-- C3: under group-name uniqueness and the side condition that the
`'project'` group is not recorded as depending on the mdao group, a full
recalculation that returns without error leaves every `Group` row fresh;
a second full recalculation is then the identity — it performs no
parameter-amount writes, emits no events and changes nothing — and each
group-level recalculate returns immediately when its group is not
expired. -/
theorem C3_recalculate_idempotent (s : Store)
    (hnd : (s.groups.map (fun gf => gf.1)).Nodup)
    (hdeps : ∀ d ∈ s.groupDeps, ¬(d.1 = "project" ∧ d.2 = "lca4mdao"))
    (herr : (MdaoParameterManager.recalculate s).err = none) :
    allFresh (MdaoParameterManager.recalculate s).st = true ∧
    MdaoParameterManager.recalculate (MdaoParameterManager.recalculate s).st =
      ⟨(MdaoParameterManager.recalculate s).st, [], none⟩ ∧
    paramWriteCount (MdaoParameterManager.recalculate
      (MdaoParameterManager.recalculate s).st).evs = 0 ∧
    (∀ t, MdaoParameter.expired t = false → MdaoParameter.recalculate t = ⟨t, [], none⟩) := by
  have hall : allFresh (MdaoParameterManager.recalculate s).st = true := by
    unfold MdaoParameterManager.recalculate at herr ⊢
    obtain ⟨he1, hrest⟩ := andThen_err_none _ _ herr
    obtain ⟨he2, hrest2⟩ := andThen_err_none _ _ hrest
    obtain ⟨he3, he4⟩ := andThen_err_none _ _ hrest2
    rw [andThen_st_of_ok _ _ he1, andThen_st_of_ok _ _ he2, andThen_st_of_ok _ _ he3]
    have m1 := onlyFreshens_phaseProject s
    have hnd1 := m1.2.2.1 hnd
    have hP1 := rowsTrue_project_phase1 s hnd he1
    have hdeps1 : ∀ d ∈ (phaseProject s).st.groupDeps, ¬(d.1 = "project" ∧ d.2 = "lca4mdao") := by
      rw [m1.1]
      exact hdeps
    have m2 := phaseMdao_meta (phaseProject s).st hdeps1
    have hnd2 := m2.2.2.1 hnd1
    have hP2 := m2.2.2.2 hP1
    have m3 := onlyFreshens_dbLoop (phaseMdao (phaseProject s).st).st.databases
      (phaseMdao (phaseProject s).st).st
    have hnd3 := m3.2.2.1 hnd2
    have hP3 := m3.2.2.2 "project" hP2
    have hdbs := dbLoop_rowsTrue (phaseMdao (phaseProject s).st).st.databases
      (phaseMdao (phaseProject s).st).st hnd2 he3
    have hdbeq := m3.2.1
    apply actLoop_all_fresh _ _ _ hnd3 he4
    intro gf hmem hfalse
    refine ⟨mem_staleGroups _ gf hmem hfalse, ?_, ?_⟩
    · intro hin
      rw [hdbeq] at hin
      exact absurd (hdbs gf.1 hin gf hmem rfl) (by simp [hfalse])
    · intro heq
      exact absurd (hP3 gf hmem heq) (by simp [hfalse])
  refine ⟨hall, manager_fixed_point _ hall, ?_, ?_⟩
  · rw [manager_fixed_point _ hall]
    rfl
  · intro t ht
    simp [MdaoParameter.recalculate, ht]

/-- An expired mdao group holding a single formula-free parameter. -/
def c3Store : Store :=
  ⟨[⟨"x", none, 2, none⟩], [], [], [], [], [], [("lca4mdao", false)], [], [], []⟩

theorem C3_witness :
    allFresh (MdaoParameterManager.recalculate c3Store).st = true ∧
    MdaoParameterManager.recalculate (MdaoParameterManager.recalculate c3Store).st =
      ⟨(MdaoParameterManager.recalculate c3Store).st, [], none⟩ ∧
    paramWriteCount (MdaoParameterManager.recalculate
      (MdaoParameterManager.recalculate c3Store).st).evs = 0 := by
  have h := C3_recalculate_idempotent c3Store (by decide) (by decide) (by decide)
  exact ⟨h.1, h.2.1, h.2.2.1⟩
